import Mathlib

/-!
# Verification of the PERT/CPM scheduling engine (`pert.py`)

This file is a shallow embedding, in Lean 4, of the scheduling core of the
repository: the `PERTDiagram` class of `pert.py`.  Tasks live in an
insertion-ordered association list (modelling a Python `dict`, whose keys are
unique and whose iteration order is insertion order).  Durations and times are
embedded as `Int`: the code performs exact arithmetic on whatever numbers it is
given, and integers are a valid subtype of the "positive real" durations of the
data model; no property considered here depends on fractional values.

The dependency graph of `networkx` is not reified as a separate object: it is a
pure function of the registry (one node per task, one edge dep → dependent),
so every place the code consults `self.graph` is embedded as a function of the
task list's keys and dependency lists (`depsView`).  `nx.topological_sort` is
modelled by a layered Kahn algorithm (`topoAuxFull`): the library contract is
only that it yields *some* topological order of an acyclic graph, and the
computed results are characterised by order-independent recurrences below.
`nx.find_cycle` (which raises `NetworkXNoCycle` exactly when the graph is
acyclic) is modelled by the same Kahn pass getting stuck: `hasCycleB` is proved
equivalent to the existence of a directed cycle in `cycleB_iff_cycleExists`.
-/

/-- A task registry entry: the two declared attributes (`duration`,
`dependencies`) and the five computed timing fields, exactly the keys of the
Python dict created by `add_task` (`est`, `eft`, `lst`, `lft`, `float`; the
last is named `flt` here because `float` reads poorly in Lean). -/
structure TaskInfo where
  duration : Int
  dependencies : List String
  est : Int
  eft : Int
  lst : Int
  lft : Int
  flt : Int
deriving Repr, DecidableEq

/-- The state of a `PERTDiagram` object: the task registry (`self.tasks`, an
insertion-ordered dict), the computed critical path and project duration.
`self.graph` is derived data (rebuilt from `tasks` by `_build_graph` before
every use), so it is not part of the state. -/
structure PERTDiagram where
  tasks : List (String × TaskInfo)
  critical_path : List String
  project_duration : Int
deriving Repr, DecidableEq

/-- `PERTDiagram.__init__`: empty registry, empty critical path, duration 0. -/
def PERTDiagram.init : PERTDiagram := ⟨[], [], 0⟩

/-- The fresh registry entry built by `add_task`: all computed fields zero. -/
def mkTaskInfo (dur : Int) (deps : List String) : TaskInfo :=
  ⟨dur, deps, 0, 0, 0, 0, 0⟩

/-- First-match lookup in the registry, `self.tasks[k]` / `k in self.tasks`.
(Keys are unique in every state reachable through `add_task`.) -/
def lookupTask : List (String × TaskInfo) → String → Option TaskInfo
  | [], _ => none
  | p :: ps, k => if p.1 = k then some p.2 else lookupTask ps k

/-- `k in self.tasks` as a boolean. -/
def hasTaskKey (ts : List (String × TaskInfo)) (k : String) : Bool :=
  ts.any (fun p => p.1 == k)

/-- Python dict assignment `self.tasks[k] = v`: replace the entry in place if
the key exists (preserving its position), otherwise append. -/
def dictInsert (ts : List (String × TaskInfo)) (k : String) (v : TaskInfo) :
    List (String × TaskInfo) :=
  if hasTaskKey ts k then
    ts.map (fun p => if p.1 = k then (k, v) else p)
  else ts ++ [(k, v)]

/-- `PERTDiagram.add_task`: unconditionally store a fresh entry (computed
fields zeroed) under `task_id`; never fails, silently overwrites. -/
def add_task (s : PERTDiagram) (task_id : String) (duration : Int)
    (dependencies : List String) : PERTDiagram :=
  { s with tasks := dictInsert s.tasks task_id (mkTaskInfo duration dependencies) }

/-- Replace the value stored at key `k` (first match), leaving the list
unchanged if the key is absent.  Used for the in-place field updates
`task_info['est'] = ...` performed by the two passes. -/
def setTask : List (String × TaskInfo) → String → TaskInfo → List (String × TaskInfo)
  | [], _, _ => []
  | p :: ps, k, v => if p.1 = k then (p.1, v) :: ps else p :: setTask ps k v

-- ### Basic registry lemmas

theorem lookupTask_eq_none_iff (ts : List (String × TaskInfo)) (k : String) :
    lookupTask ts k = none ↔ hasTaskKey ts k = false := by
  induction ts with
  | nil => simp [lookupTask, hasTaskKey]
  | cons p ps ih =>
    simp only [lookupTask, hasTaskKey, List.any_cons, beq_iff_eq]
    by_cases h : p.1 = k
    · simp [h]
    · simpa [h, hasTaskKey] using ih

theorem lookupTask_isSome_iff (ts : List (String × TaskInfo)) (k : String) :
    (lookupTask ts k).isSome = true ↔ hasTaskKey ts k = true := by
  rcases h : lookupTask ts k with _ | v
  · rw [lookupTask_eq_none_iff] at h
    simp [h]
  · have : ¬ lookupTask ts k = none := by simp [h]
    rw [lookupTask_eq_none_iff] at this
    simp at this
    simp [this]

theorem lookupTask_mem {ts : List (String × TaskInfo)} {k : String} {v : TaskInfo}
    (h : lookupTask ts k = some v) : (k, v) ∈ ts := by
  induction ts with
  | nil => simp [lookupTask] at h
  | cons p ps ih =>
    by_cases hk : p.1 = k
    · simp [lookupTask, hk] at h
      have hp : p = (k, v) := by
        cases p
        simp at hk h
        simp [hk, h]
      rw [hp]
      exact List.mem_cons_self _ _
    · simp [lookupTask, hk] at h
      exact List.mem_cons_of_mem _ (ih h)

theorem mem_keys_of_lookupTask {ts : List (String × TaskInfo)} {k : String} {v : TaskInfo}
    (h : lookupTask ts k = some v) : k ∈ ts.map Prod.fst := by
  have := lookupTask_mem h
  exact List.mem_map.mpr ⟨(k, v), this, rfl⟩

theorem lookupTask_of_mem_nodup {ts : List (String × TaskInfo)} {k : String} {v : TaskInfo}
    (hnd : (ts.map Prod.fst).Nodup) (h : (k, v) ∈ ts) : lookupTask ts k = some v := by
  induction ts with
  | nil => simp at h
  | cons p ps ih =>
    rw [List.map_cons, List.nodup_cons] at hnd
    rcases List.mem_cons.mp h with h | h
    · rw [← h]
      simp [lookupTask]
    · have hk : ¬ p.1 = k := by
        intro hpk
        apply hnd.1
        rw [hpk]
        exact List.mem_map.mpr ⟨(k, v), h, rfl⟩
      simp [lookupTask, hk]
      exact ih hnd.2 h

-- sanity examples for the registry model
example : lookupTask (dictInsert [] "A" (mkTaskInfo 3 [])) "A" = some (mkTaskInfo 3 []) := by
  decide

example :
    dictInsert [("A", mkTaskInfo 3 []), ("B", mkTaskInfo 4 ["A"])] "A" (mkTaskInfo 7 [])
      = [("A", mkTaskInfo 7 []), ("B", mkTaskInfo 4 ["A"])] := by
  decide

-- ### The dependency graph view and topological order

/-- The part of the registry the dependency graph is built from: the key and
dependency list of every task, in registry order (`_build_graph` adds one node
per task and one edge `dep → task` per declared dependency). -/
abbrev DepsView := List (String × List String)

/-- Project the registry onto the data the graph depends on. -/
def depsView (ts : List (String × TaskInfo)) : DepsView :=
  ts.map (fun p => (p.1, p.2.dependencies))

/-- Key membership in a deps view. -/
def hasKeyD (ds : DepsView) (k : String) : Bool :=
  ds.any (fun p => p.1 == k)

/-- A node is *free* (a Kahn source) when none of its declared dependencies is
a key of the remaining view — i.e. it has no incoming edge from a remaining
node.  (A dependency that is not a registered task contributes an edge from an
isolated extra node that the first Kahn layer removes, so it never blocks.) -/
def isFreeD (ds : DepsView) (p : String × List String) : Bool :=
  !(p.2.any (fun d => hasKeyD ds d))

/-- Layered Kahn elimination: repeatedly output every free node and recurse on
the rest.  Returns (output order, stuck remainder); the remainder is nonempty
exactly when the graph has a directed cycle.  `fuel` only forces termination;
`fuel ≥ ds.length` makes the 0 case unreachable. -/
def topoAuxFull : Nat → DepsView → List String × DepsView
  | 0, ds => ([], ds)
  | fuel + 1, ds =>
    let ready := ds.filter (fun p => isFreeD ds p)
    if ready.isEmpty then ([], ds)
    else
      let r := topoAuxFull fuel (ds.filter (fun p => !(isFreeD ds p)))
      (ready.map Prod.fst ++ r.1, r.2)

/-- A topological order of the graph, modelling `nx.topological_sort` (the
library contract: some topological order of the nodes; raises on a cycle, a
situation the engine only meets after validation has already excluded it). -/
def topoSort (ds : DepsView) : List String :=
  (topoAuxFull ds.length ds).1

/-- The stuck remainder of the Kahn pass. -/
def kahnLeftover (ds : DepsView) : DepsView :=
  (topoAuxFull ds.length ds).2

/-- Models `nx.find_cycle` succeeding (not raising `NetworkXNoCycle`): the
dependency graph contains a directed cycle iff Kahn elimination gets stuck.
The equivalence with the existential cycle statement is proved below. -/
def hasCycleB (ds : DepsView) : Bool :=
  !(kahnLeftover ds).isEmpty

-- ### Validation (`PERTDiagram.validate_tasks`)

/-- The unknown-dependency diagnostic,
`f"Task '{task_id}' depends on non-existent task '{dep}'"`. -/
def unknownDepMsg (t d : String) : String :=
  "Task \x27" ++ t ++ "\x27 depends on non-existent task \x27" ++ d ++ "\x27"

/-- The fixed circular-dependency diagnostic. -/
def cycleMsg : String := "Circular dependency detected in the project"

/-- Scan for the first task (in registry order) declaring a dependency that is
not a registry key, returning that task's id and the offending dependency. -/
def findUnknownDepAux (all : List (String × TaskInfo)) :
    List (String × TaskInfo) → Option (String × String)
  | [] => none
  | p :: ps =>
    match p.2.dependencies.find? (fun d => !(hasTaskKey all d)) with
    | some d => some (p.1, d)
    | none => findUnknownDepAux all ps

def findUnknownDep (ts : List (String × TaskInfo)) : Option (String × String) :=
  findUnknownDepAux ts ts

/-- `PERTDiagram.validate_tasks`: reject the first unresolved dependency with
a message naming task and dependency; otherwise reject a cyclic graph with the
fixed message; otherwise succeed with the empty message.  The method reads but
never assigns `self`, so the state component of the result is the input. -/
def validate_tasks (s : PERTDiagram) : PERTDiagram × Bool × String :=
  match findUnknownDep s.tasks with
  | some (t, d) => (s, false, unknownDepMsg t d)
  | none =>
    if hasCycleB (depsView s.tasks) then (s, false, cycleMsg)
    else (s, true, "")

-- ### Forward pass (`calculate_earliest_times`)

/-- `self.tasks[d]['eft']`, with an (unreachable post-validation) default. -/
def getEft (ts : List (String × TaskInfo)) (d : String) : Int :=
  match lookupTask ts d with
  | some i => i.eft
  | none => 0

/-- One iteration of the forward loop body for task `tid`: `est` is 0 for a
task without dependencies, else the running `max` (seeded at 0) of the
dependencies' `eft`; `eft = est + duration`. -/
def forwardStep (ts : List (String × TaskInfo)) (tid : String) :
    List (String × TaskInfo) :=
  match lookupTask ts tid with
  | none => ts
  | some info =>
    let e : Int :=
      if info.dependencies.isEmpty then 0
      else info.dependencies.foldl (fun m d => max m (getEft ts d)) 0
    setTask ts tid { info with est := e, eft := e + info.duration }

/-- `PERTDiagram.calculate_earliest_times`: fold the loop body over a
topological order; afterwards, if the registry is nonempty, `project_duration`
becomes the maximum `eft` (Python `max` over the dict values), otherwise it is
left untouched. -/
def calculate_earliest_times (s : PERTDiagram) : PERTDiagram :=
  let order := topoSort (depsView s.tasks)
  let ts := order.foldl forwardStep s.tasks
  { s with
    tasks := ts
    project_duration :=
      match ts with
      | [] => s.project_duration
      | p :: ps => ps.foldl (fun m q => max m q.2.eft) p.2.eft }

-- ### Backward pass (`calculate_latest_times`)

/-- Successors of node `n` in the dependency graph: the tasks declaring `n` as
a dependency, in registry order (the adjacency order in which `_build_graph`
inserts the edges). -/
def successorsD (ds : DepsView) (n : String) : List String :=
  (ds.filter (fun p => p.2.contains n)).map Prod.fst

/-- `self.tasks[x]['lst']`, with an (unreachable post-validation) default. -/
def getLst (ts : List (String × TaskInfo)) (x : String) : Int :=
  match lookupTask ts x with
  | some i => i.lst
  | none => 0

/-- One iteration of the backward loop body for task `tid`: with successors,
`lft` is their minimum `lst` (Python folds `min` from `inf`, equal to the fold
from the first element on a nonempty list); without successors the seeded
`lft` is kept.  Then `lst = lft - duration` and `float = lst - est`. -/
def backwardStep (ds : DepsView) (ts : List (String × TaskInfo)) (tid : String) :
    List (String × TaskInfo) :=
  match lookupTask ts tid with
  | none => ts
  | some info =>
    let lf : Int :=
      match successorsD ds tid with
      | [] => info.lft
      | s0 :: rest => rest.foldl (fun m x => min m (getLst ts x)) (getLst ts s0)
    let ls := lf - info.duration
    setTask ts tid { info with lft := lf, lst := ls, flt := ls - info.est }

/-- `PERTDiagram.calculate_latest_times`: seed every `lft` with the project
duration, then fold the loop body over the reversed topological order.  The
graph (hence `successorsD` and the order) is a function of keys and
dependency lists only, unchanged since `_build_graph`. -/
def calculate_latest_times (s : PERTDiagram) : PERTDiagram :=
  let ds := depsView s.tasks
  let seeded := s.tasks.map (fun p => (p.1, { p.2 with lft := s.project_duration }))
  let order := (topoSort ds).reverse
  { s with tasks := order.foldl (backwardStep ds) seeded }

-- ### Critical path (`identify_critical_path`)

/-- The zero-float tasks, in registry order. -/
def criticalTasks (ts : List (String × TaskInfo)) : List String :=
  (ts.filter (fun p => p.2.flt == 0)).map Prod.fst

/-- Successors of `t` inside the critical subgraph: successors in the full
graph restricted to critical nodes (`networkx` subgraph views keep the
underlying adjacency order). -/
def critSuccs (ds : DepsView) (crit : List String) (t : String) : List String :=
  (successorsD ds t).filter (fun x => crit.contains x)

/-- The dependency list of key `t` in a deps view (first match, `[]` if
absent). -/
def lookupDeps : DepsView → String → List String
  | [], _ => []
  | p :: ps, k => if p.1 = k then p.2 else lookupDeps ps k

/-- The BFS loop of `identify_critical_path`: pop the queue; skip visited
nodes; otherwise mark visited, append to the path, and enqueue the critical
successors not yet visited.  `fuel` only forces termination; the quadratic
bound used below dominates every possible enqueue. -/
def bfsAux (ds : DepsView) (crit : List String) :
    Nat → List String → List String → List String → List String
  | 0, _, _, acc => acc
  | fuel + 1, visited, queue, acc =>
    match queue with
    | [] => acc
    | t :: rest =>
      if visited.contains t then bfsAux ds crit fuel visited rest acc
      else
        bfsAux ds crit fuel (visited ++ [t])
          (rest ++ (critSuccs ds crit t).filter (fun x => !((visited ++ [t]).contains x)))
          (acc ++ [t])

/-- `PERTDiagram.identify_critical_path`: reset the path; if there are
critical tasks, seed the queue with those having no incoming edge inside the
critical subgraph (equivalently: no critical dependency) and BFS; if there are
no critical tasks, or no zero-in-degree seed, the path stays empty. -/
def identify_critical_path (s : PERTDiagram) : PERTDiagram :=
  let crit := criticalTasks s.tasks
  if crit.isEmpty then { s with critical_path := [] }
  else
    let ds := depsView s.tasks
    let start := crit.filter (fun t => !((lookupDeps ds t).any (fun d => crit.contains d)))
    if start.isEmpty then { s with critical_path := [] }
    else
      { s with critical_path :=
          bfsAux ds crit ((s.tasks.length + 1) * (s.tasks.length + 1)) [] start [] }

-- ### Analysis pipeline (`analyze`)

/-- The computation stages guarded by `analyze`'s try block.  With the typed
registry of this embedding none of them can fail once validation has
succeeded (the exception handler of the Python code is dead in that case:
topological sort cannot raise on the validated acyclic graph and every
dependency key resolves). -/
def analyzePipeline (s : PERTDiagram) : PERTDiagram :=
  identify_critical_path (calculate_latest_times (calculate_earliest_times s))

/-- `PERTDiagram.analyze`: validate first and stop (state untouched) on
failure; otherwise rebuild the graph and run the three computation stages. -/
def analyze (s : PERTDiagram) : PERTDiagram × Bool × String :=
  let v := validate_tasks s
  if v.2.1 then (analyzePipeline s, true, "") else (s, false, v.2.2)

-- ### Reachable states

/-- The states a `PERTDiagram` object can actually be in: freshly constructed,
or the result of `add_task` / `analyze` on a reachable state.  (The class has
no other self-mutating public operation.) -/
inductive Reachable : PERTDiagram → Prop
  | init : Reachable PERTDiagram.init
  | add (s : PERTDiagram) (id : String) (dur : Int) (deps : List String) :
      Reachable s → Reachable (add_task s id dur deps)
  | analyze (s : PERTDiagram) : Reachable s → Reachable (analyze s).1

-- ### Frame lemmas for the in-place updates

theorem setTask_map_fst (ts : List (String × TaskInfo)) (k : String) (v : TaskInfo) :
    (setTask ts k v).map Prod.fst = ts.map Prod.fst := by
  induction ts with
  | nil => rfl
  | cons p ps ih => by_cases h : p.1 = k <;> simp [setTask, h, ih]

theorem lookupTask_setTask_ne {ts : List (String × TaskInfo)} {k k' : String}
    {v : TaskInfo} (h : k' ≠ k) :
    lookupTask (setTask ts k v) k' = lookupTask ts k' := by
  induction ts with
  | nil => rfl
  | cons p ps ih =>
    by_cases hp : p.1 = k
    · have hpk : ¬ p.1 = k' := by
        rw [hp]
        exact fun hh => h hh.symm
      simp [setTask, hp, lookupTask, hpk, Ne.symm h]
    · simp only [setTask, if_neg hp, lookupTask]
      by_cases hq : p.1 = k' <;> simp [hq, ih]

theorem lookupTask_setTask_self {ts : List (String × TaskInfo)} {k : String}
    {v info : TaskInfo} (h : lookupTask ts k = some info) :
    lookupTask (setTask ts k v) k = some v := by
  induction ts with
  | nil => simp [lookupTask] at h
  | cons p ps ih =>
    by_cases hp : p.1 = k
    · simp [setTask, hp, lookupTask]
    · simp only [lookupTask, if_neg hp] at h
      simp only [setTask, if_neg hp, lookupTask, if_neg hp]
      exact ih h

theorem depsView_setTask {ts : List (String × TaskInfo)} {k : String} {v info : TaskInfo}
    (hl : lookupTask ts k = some info) (hd : v.dependencies = info.dependencies) :
    depsView (setTask ts k v) = depsView ts := by
  induction ts with
  | nil => rfl
  | cons p ps ih =>
    by_cases hp : p.1 = k
    · simp only [lookupTask, if_pos hp, Option.some.injEq] at hl
      simp [setTask, hp, depsView, hd, hl]
    · simp only [lookupTask, if_neg hp] at hl
      simp only [setTask, if_neg hp, depsView, List.map_cons]
      exact congrArg (List.cons _) (ih hl)

/-- `forwardStep` changes no entry other than the one it processes. -/
theorem lookupTask_forwardStep_ne {ts : List (String × TaskInfo)} {u d : String}
    (h : d ≠ u) : lookupTask (forwardStep ts u) d = lookupTask ts d := by
  unfold forwardStep
  cases hu : lookupTask ts u
  · rfl
  · exact lookupTask_setTask_ne h

theorem forwardStep_map_fst (ts : List (String × TaskInfo)) (u : String) :
    (forwardStep ts u).map Prod.fst = ts.map Prod.fst := by
  unfold forwardStep
  cases hu : lookupTask ts u
  · rfl
  · exact setTask_map_fst ..

theorem depsView_forwardStep (ts : List (String × TaskInfo)) (u : String) :
    depsView (forwardStep ts u) = depsView ts := by
  unfold forwardStep
  cases hu : lookupTask ts u
  · rfl
  · exact depsView_setTask hu rfl

theorem lookupTask_backwardStep_ne {ds : DepsView} {ts : List (String × TaskInfo)}
    {u d : String} (h : d ≠ u) :
    lookupTask (backwardStep ds ts u) d = lookupTask ts d := by
  unfold backwardStep
  cases hu : lookupTask ts u
  · rfl
  · exact lookupTask_setTask_ne h

theorem backwardStep_map_fst (ds : DepsView) (ts : List (String × TaskInfo)) (u : String) :
    (backwardStep ds ts u).map Prod.fst = ts.map Prod.fst := by
  unfold backwardStep
  cases hu : lookupTask ts u
  · rfl
  · exact setTask_map_fst ..

theorem depsView_backwardStep (ds : DepsView) (ts : List (String × TaskInfo)) (u : String) :
    depsView (backwardStep ds ts u) = depsView ts := by
  unfold backwardStep
  cases hu : lookupTask ts u
  · rfl
  · exact depsView_setTask hu rfl

/-- Entries never named by the processing order are untouched by the forward
fold. -/
theorem lookupTask_foldl_forwardStep_not_mem {L : List String}
    {ts : List (String × TaskInfo)} {d : String} (h : d ∉ L) :
    lookupTask (L.foldl forwardStep ts) d = lookupTask ts d := by
  induction L generalizing ts with
  | nil => rfl
  | cons u L' ih =>
    simp only [List.mem_cons, not_or] at h
    rw [List.foldl_cons, ih h.2, lookupTask_forwardStep_ne h.1]

theorem lookupTask_foldl_backwardStep_not_mem {ds : DepsView} {L : List String}
    {ts : List (String × TaskInfo)} {d : String} (h : d ∉ L) :
    lookupTask (L.foldl (backwardStep ds) ts) d = lookupTask ts d := by
  induction L generalizing ts with
  | nil => rfl
  | cons u L' ih =>
    simp only [List.mem_cons, not_or] at h
    rw [List.foldl_cons, ih h.2, lookupTask_backwardStep_ne h.1]

theorem foldl_forwardStep_map_fst (L : List String) (ts : List (String × TaskInfo)) :
    (L.foldl forwardStep ts).map Prod.fst = ts.map Prod.fst := by
  induction L generalizing ts with
  | nil => rfl
  | cons u L' ih => rw [List.foldl_cons, ih, forwardStep_map_fst]

theorem foldl_backwardStep_map_fst (ds : DepsView) (L : List String)
    (ts : List (String × TaskInfo)) :
    (L.foldl (backwardStep ds) ts).map Prod.fst = ts.map Prod.fst := by
  induction L generalizing ts with
  | nil => rfl
  | cons u L' ih => rw [List.foldl_cons, ih, backwardStep_map_fst]

theorem depsView_foldl_forwardStep (L : List String) (ts : List (String × TaskInfo)) :
    depsView (L.foldl forwardStep ts) = depsView ts := by
  induction L generalizing ts with
  | nil => rfl
  | cons u L' ih => rw [List.foldl_cons, ih, depsView_forwardStep]

theorem depsView_foldl_backwardStep (ds : DepsView) (L : List String)
    (ts : List (String × TaskInfo)) :
    depsView (L.foldl (backwardStep ds) ts) = depsView ts := by
  induction L generalizing ts with
  | nil => rfl
  | cons u L' ih => rw [List.foldl_cons, ih, depsView_backwardStep]

/-- Seeding every `lft` with the project duration changes neither keys nor
dependency lists. -/
theorem depsView_seed (ts : List (String × TaskInfo)) (pd : Int) :
    depsView (ts.map (fun p => (p.1, { p.2 with lft := pd }))) = depsView ts := by
  simp [depsView]

theorem seed_map_fst (ts : List (String × TaskInfo)) (pd : Int) :
    (ts.map (fun p => (p.1, { p.2 with lft := pd }))).map Prod.fst = ts.map Prod.fst := by
  simp

theorem hasKeyD_iff (ds : DepsView) (k : String) :
    hasKeyD ds k = true ↔ k ∈ ds.map Prod.fst := by
  simp [hasKeyD, List.any_eq_true]

theorem hasTaskKey_iff (ts : List (String × TaskInfo)) (k : String) :
    hasTaskKey ts k = true ↔ k ∈ ts.map Prod.fst := by
  simp [hasTaskKey, List.any_eq_true]

theorem depsView_map_fst (ts : List (String × TaskInfo)) :
    (depsView ts).map Prod.fst = ts.map Prod.fst := by
  simp [depsView]

-- ### Properties of the Kahn elimination

theorem topoAuxFull_succ (fuel : Nat) (ds : DepsView) :
    topoAuxFull (fuel + 1) ds =
      if (ds.filter (fun p => isFreeD ds p)).isEmpty then ([], ds)
      else
        ((ds.filter (fun p => isFreeD ds p)).map Prod.fst ++
            (topoAuxFull fuel (ds.filter (fun p => !(isFreeD ds p)))).1,
          (topoAuxFull fuel (ds.filter (fun p => !(isFreeD ds p)))).2) := rfl

/-- Kahn elimination partitions the node set: output plus stuck remainder is a
permutation of the keys. -/
theorem topoAuxFull_perm (fuel : Nat) (ds : DepsView) :
    ((topoAuxFull fuel ds).1 ++ (topoAuxFull fuel ds).2.map Prod.fst).Perm
      (ds.map Prod.fst) := by
  induction fuel generalizing ds with
  | zero => simp [topoAuxFull]
  | succ fuel ih =>
    rw [topoAuxFull_succ]
    by_cases h : (ds.filter (fun p => isFreeD ds p)).isEmpty
    · simp [h]
    · simp only [if_neg h]
      have hsplit :
          (ds.filter (fun p => isFreeD ds p) ++
            ds.filter (fun p => !(isFreeD ds p))).Perm ds :=
        List.filter_append_perm _ ds
      have hmap := hsplit.map Prod.fst
      rw [List.map_append] at hmap
      rw [List.append_assoc]
      exact ((ih _).append_left _).trans hmap

/-- The stuck remainder is a sublist of the input view. -/
theorem topoAuxFull_sublist (fuel : Nat) (ds : DepsView) :
    (topoAuxFull fuel ds).2.Sublist ds := by
  induction fuel generalizing ds with
  | zero => simp [topoAuxFull]
  | succ fuel ih =>
    rw [topoAuxFull_succ]
    by_cases h : (ds.filter (fun p => isFreeD ds p)).isEmpty
    · simp [h]
    · simp only [if_neg h]
      exact (ih _).trans (List.filter_sublist ds)

/-- Every node of a nonempty stuck remainder is blocked inside the
remainder. -/
theorem topoAuxFull_stuck (fuel : Nat) (ds : DepsView) (hf : ds.length ≤ fuel)
    (hne : (topoAuxFull fuel ds).2 ≠ []) :
    ∀ p ∈ (topoAuxFull fuel ds).2, isFreeD (topoAuxFull fuel ds).2 p = false := by
  induction fuel generalizing ds with
  | zero =>
    have hds : ds = [] := List.eq_nil_of_length_eq_zero (Nat.le_zero.mp hf)
    rw [hds] at hne
    simp [topoAuxFull] at hne
  | succ fuel ih =>
    rw [topoAuxFull_succ] at hne ⊢
    by_cases h : (ds.filter (fun p => isFreeD ds p)).isEmpty
    · simp only [if_pos h]
      have hready := List.filter_eq_nil_iff.mp (List.isEmpty_iff.mp h)
      intro p hp
      have := hready p hp
      simpa using this
    · simp only [if_neg h] at hne ⊢
      apply ih
      · have hne' : ds.filter (fun p => isFreeD ds p) ≠ [] := by
          intro hh
          rw [List.isEmpty_iff] at h
          exact h hh
        have hex : ∃ x ∈ ds, isFreeD ds x = true := by
          rcases List.exists_mem_of_ne_nil _ hne' with ⟨x, hx⟩
          exact ⟨x, (List.mem_filter.mp hx).1, (List.mem_filter.mp hx).2⟩
        have hlt : (ds.filter (fun p => !(isFreeD ds p))).length < ds.length := by
          apply List.length_filter_lt_length_iff_exists.mpr
          rcases hex with ⟨x, hx, hfx⟩
          exact ⟨x, hx, by simp [hfx]⟩
        omega
      · exact hne

/-- The output is made of keys of the input view. -/
theorem topoAuxFull_out_subset (fuel : Nat) (ds : DepsView) :
    ∀ x ∈ (topoAuxFull fuel ds).1, x ∈ ds.map Prod.fst := by
  intro x hx
  exact (topoAuxFull_perm fuel ds).subset (List.mem_append_left _ hx)

/-- With duplicate-free keys, a node is emitted strictly after any of its
dependencies that is a key of the view and is emitted at all. -/
theorem topoAuxFull_order (fuel : Nat) (ds : DepsView)
    (hnd : (ds.map Prod.fst).Nodup) :
    ∀ p ∈ ds, ∀ d ∈ p.2, d ∈ ds.map Prod.fst →
      d ∈ (topoAuxFull fuel ds).1 → p.1 ∈ (topoAuxFull fuel ds).1 →
      List.indexOf d (topoAuxFull fuel ds).1 <
        List.indexOf p.1 (topoAuxFull fuel ds).1 := by
  induction fuel generalizing ds with
  | zero =>
    intro p hp d hd hdk hdo hto
    simp [topoAuxFull] at hdo
  | succ fuel ih =>
    rw [topoAuxFull_succ]
    by_cases h : (ds.filter (fun p => isFreeD ds p)).isEmpty
    · simp only [if_pos h]
      intro p hp d hd hdk hdo hto
      simp at hdo
    · simp only [if_neg h]
      intro p hp d hd hdk hdo hto
      have hblocked : isFreeD ds p = false := by
        have hany : p.2.any (fun x => hasKeyD ds x) = true :=
          List.any_eq_true.mpr ⟨d, hd, (hasKeyD_iff ds d).mpr hdk⟩
        simp [isFreeD, hany]
      have hpkept : p ∈ ds.filter (fun p => !(isFreeD ds p)) :=
        List.mem_filter.mpr ⟨hp, by simp [hblocked]⟩
      have htk : p.1 ∈ (ds.filter (fun p => !(isFreeD ds p))).map Prod.fst :=
        List.mem_map.mpr ⟨p, hpkept, rfl⟩
      have hdisjnd :
          ((ds.filter (fun p => isFreeD ds p)).map Prod.fst ++
            (ds.filter (fun p => !(isFreeD ds p))).map Prod.fst).Nodup := by
        have hsplit :
            (ds.filter (fun p => isFreeD ds p) ++
              ds.filter (fun p => !(isFreeD ds p))).Perm ds :=
          List.filter_append_perm _ ds
        have hmap := hsplit.map Prod.fst
        rw [List.map_append] at hmap
        exact hmap.nodup_iff.mpr hnd
      have hdisj := (List.nodup_append.mp hdisjnd).2.2
      have htnotready : p.1 ∉ (ds.filter (fun p => isFreeD ds p)).map Prod.fst :=
        fun hh => hdisj hh htk
      have hto' : p.1 ∈ (topoAuxFull fuel (ds.filter (fun p => !(isFreeD ds p)))).1 := by
        rcases List.mem_append.mp hto with h' | h'
        · exact absurd h' htnotready
        · exact h'
      by_cases hdr : d ∈ (ds.filter (fun p => isFreeD ds p)).map Prod.fst
      · rw [List.indexOf_append_of_mem hdr, List.indexOf_append_of_not_mem htnotready]
        calc
          List.indexOf d ((ds.filter (fun p => isFreeD ds p)).map Prod.fst)
              < ((ds.filter (fun p => isFreeD ds p)).map Prod.fst).length :=
            List.indexOf_lt_length.mpr hdr
          _ ≤ ((ds.filter (fun p => isFreeD ds p)).map Prod.fst).length +
                List.indexOf p.1 (topoAuxFull fuel (ds.filter (fun p => !(isFreeD ds p)))).1 :=
            Nat.le_add_right _ _
      · have hdo' : d ∈ (topoAuxFull fuel (ds.filter (fun p => !(isFreeD ds p)))).1 := by
          rcases List.mem_append.mp hdo with h' | h'
          · exact absurd h' hdr
          · exact h'
        have hdk' : d ∈ (ds.filter (fun p => !(isFreeD ds p))).map Prod.fst :=
          topoAuxFull_out_subset _ _ _ hdo'
        have hnd' : ((ds.filter (fun p => !(isFreeD ds p))).map Prod.fst).Nodup :=
          ((List.filter_sublist ds).map Prod.fst).nodup hnd
        have hrec := ih _ hnd' p hpkept d hd hdk' hdo' hto'
        rw [List.indexOf_append_of_not_mem hdr, List.indexOf_append_of_not_mem htnotready]
        omega

theorem topoSort_append_perm (ds : DepsView) :
    (topoSort ds ++ (kahnLeftover ds).map Prod.fst).Perm (ds.map Prod.fst) :=
  topoAuxFull_perm _ _

theorem topoSort_subset (ds : DepsView) : topoSort ds ⊆ ds.map Prod.fst :=
  fun _ hx => (topoSort_append_perm ds).subset (List.mem_append_left _ hx)

theorem kahnLeftover_eq_nil {ds : DepsView} (h : hasCycleB ds = false) :
    kahnLeftover ds = [] := by
  simpa [hasCycleB, List.isEmpty_iff] using h

/-- On an acyclic graph the Kahn order is a permutation of the keys. -/
theorem topoSort_perm_of_acyclic {ds : DepsView} (h : hasCycleB ds = false) :
    (topoSort ds).Perm (ds.map Prod.fst) := by
  have hperm := topoSort_append_perm ds
  rw [kahnLeftover_eq_nil h] at hperm
  simpa using hperm

theorem topoSort_nodup {ds : DepsView} (hnd : (ds.map Prod.fst).Nodup) :
    (topoSort ds).Nodup := by
  have hperm := topoSort_append_perm ds
  have hall : (topoSort ds ++ (kahnLeftover ds).map Prod.fst).Nodup :=
    hperm.nodup_iff.mpr hnd
  exact (List.nodup_append.mp hall).1

theorem mem_topoSort_of_acyclic {ds : DepsView} (h : hasCycleB ds = false)
    {k : String} (hk : k ∈ ds.map Prod.fst) : k ∈ topoSort ds :=
  (topoSort_perm_of_acyclic h).mem_iff.mpr hk

/-- The Kahn order is topological: a task comes strictly after each of its
emitted dependencies. -/
theorem topoSort_order {ds : DepsView} (hnd : (ds.map Prod.fst).Nodup) :
    ∀ p ∈ ds, ∀ d ∈ p.2, d ∈ ds.map Prod.fst →
      d ∈ topoSort ds → p.1 ∈ topoSort ds →
      List.indexOf d (topoSort ds) < List.indexOf p.1 (topoSort ds) :=
  topoAuxFull_order _ _ hnd

-- ### Directed cycles: `hasCycleB` is exact

/-- A directed edge of the dependency graph: `a → b` when `b` declares `a`
among its dependencies.  (Every edge target is a key; a dependency naming no
registered task is a node without incoming edges and lies on no cycle.) -/
def EdgeD (ds : DepsView) (a b : String) : Prop :=
  ∃ p ∈ ds, p.1 = b ∧ a ∈ p.2

/-- The dependency graph contains a directed cycle. -/
def CycleExists (ds : DepsView) : Prop :=
  ∃ t, Relation.TransGen (EdgeD ds) t t

theorem EdgeD_target_mem {ds : DepsView} {a b : String} (h : EdgeD ds a b) :
    b ∈ ds.map Prod.fst := by
  rcases h with ⟨p, hp, hb, _⟩
  exact List.mem_map.mpr ⟨p, hp, hb⟩

/-- The nodes touched by a transitive chain, each with a predecessor among
them or equal to the chain's source. -/
theorem transGen_exists_support {α : Type} {r : α → α → Prop} {a b : α}
    (h : Relation.TransGen r a b) :
    ∃ l : List α, b ∈ l ∧ ∀ x ∈ l, ∃ d, (d ∈ l ∨ d = a) ∧ r d x := by
  induction h with
  | single hab =>
    refine ⟨[_], List.mem_cons_self _ _, ?_⟩
    intro x hx
    rcases List.mem_cons.mp hx with hx | hx
    · subst hx
      exact ⟨a, Or.inr rfl, hab⟩
    · simp at hx
  | tail _ hbc ih =>
    rcases ih with ⟨l, hbl, hl⟩
    refine ⟨_ :: l, List.mem_cons_self _ _, ?_⟩
    intro x hx
    rcases List.mem_cons.mp hx with hx | hx
    · subst hx
      exact ⟨_, Or.inl (List.mem_cons_of_mem _ hbl), hbc⟩
    · rcases hl x hx with ⟨d, hd, hr⟩
      refine ⟨d, ?_, hr⟩
      rcases hd with hd | hd
      · exact Or.inl (List.mem_cons_of_mem _ hd)
      · exact Or.inr hd

/-- A cycle yields a nonempty set of nodes each blocked from within the set. -/
theorem cycle_gives_blockset {ds : DepsView} (h : CycleExists ds) :
    ∃ S : List String, S ≠ [] ∧ ∀ x ∈ S, ∃ d ∈ S, EdgeD ds d x := by
  rcases h with ⟨t, ht⟩
  rcases transGen_exists_support ht with ⟨l, htl, hl⟩
  refine ⟨l, fun hnil => by simp [hnil] at htl, ?_⟩
  intro x hx
  rcases hl x hx with ⟨d, hd, hr⟩
  rcases hd with hd | hd
  · exact ⟨d, hd, hr⟩
  · refine ⟨d, ?_, hr⟩
    rw [hd]
    exact htl

/-- Kahn elimination never discharges a set of mutually blocked nodes. -/
theorem blockset_stuck (fuel : Nat) (ds : DepsView) (S : List String)
    (hf : ds.length ≤ fuel) (hSne : S ≠ [])
    (hSk : ∀ x ∈ S, x ∈ ds.map Prod.fst)
    (hSb : ∀ x ∈ S, ∃ d ∈ S, EdgeD ds d x) :
    (topoAuxFull fuel ds).2 ≠ [] := by
  induction fuel generalizing ds with
  | zero =>
    have hds : ds = [] := List.eq_nil_of_length_eq_zero (Nat.le_zero.mp hf)
    rcases List.exists_mem_of_ne_nil S hSne with ⟨x, hx⟩
    have := hSk x hx
    rw [hds] at this
    simp at this
  | succ fuel ih =>
    rw [topoAuxFull_succ]
    by_cases h : (ds.filter (fun p => isFreeD ds p)).isEmpty
    · simp only [if_pos h]
      intro hds
      rcases List.exists_mem_of_ne_nil S hSne with ⟨x, hx⟩
      have := hSk x hx
      rw [hds] at this
      simp at this
    · simp only [if_neg h]
      have hkept : ∀ x ∈ S,
          ∃ d ∈ S, ∃ p ∈ ds.filter (fun p => !(isFreeD ds p)), p.1 = x ∧ d ∈ p.2 := by
        intro x hx
        rcases hSb x hx with ⟨d, hdS, p, hp, hpx, hdp⟩
        have hkd : hasKeyD ds d = true := (hasKeyD_iff ds d).mpr (hSk d hdS)
        have hany : p.2.any (fun y => hasKeyD ds y) = true :=
          List.any_eq_true.mpr ⟨d, hdp, hkd⟩
        have hblock : isFreeD ds p = false := by simp [isFreeD, hany]
        exact ⟨d, hdS, p, List.mem_filter.mpr ⟨hp, by simp [hblock]⟩, hpx, hdp⟩
      apply ih
      · have hne' : ds.filter (fun p => isFreeD ds p) ≠ [] := by
          intro hh
          rw [List.isEmpty_iff] at h
          exact h hh
        rcases List.exists_mem_of_ne_nil _ hne' with ⟨x, hx⟩
        have hlt : (ds.filter (fun p => !(isFreeD ds p))).length < ds.length :=
          List.length_filter_lt_length_iff_exists.mpr
            ⟨x, (List.mem_filter.mp hx).1, by simp [(List.mem_filter.mp hx).2]⟩
        omega
      · intro x hx
        rcases hkept x hx with ⟨_, _, p, hp, hpx, _⟩
        exact List.mem_map.mpr ⟨p, hp, hpx⟩
      · intro x hx
        rcases hkept x hx with ⟨d, hdS, p, hp, hpx, hdp⟩
        exact ⟨d, hdS, p, hp, hpx, hdp⟩

theorem hasCycleB_of_cycleExists {ds : DepsView} (h : CycleExists ds) :
    hasCycleB ds = true := by
  rcases cycle_gives_blockset h with ⟨S, hSne, hSb⟩
  have hSk : ∀ x ∈ S, x ∈ ds.map Prod.fst := by
    intro x hx
    rcases hSb x hx with ⟨d, _, he⟩
    exact EdgeD_target_mem he
  have hstuck := blockset_stuck ds.length ds S le_rfl hSne hSk hSb
  simpa [hasCycleB, kahnLeftover, List.isEmpty_iff] using hstuck

/-- Extend a backward walk through a totally blocked view, one node at a
time. -/
theorem exists_walk (R : DepsView) (x0 : String) (hx0 : x0 ∈ R.map Prod.fst)
    (hstep : ∀ x ∈ R.map Prod.fst, ∃ d ∈ R.map Prod.fst, EdgeD R d x) :
    ∀ n : Nat, ∃ l : List String, l.length = n ∧
      (∀ x ∈ l, x ∈ R.map Prod.fst) ∧ l.Chain' (EdgeD R) := by
  intro n
  induction n with
  | zero => exact ⟨[], rfl, by simp, List.chain'_nil⟩
  | succ n ih =>
    rcases ih with ⟨l, hlen, hmem, hch⟩
    cases l with
    | nil =>
      refine ⟨[x0], ?_, ?_, List.chain'_singleton _⟩
      · rw [← hlen]
        simp
      · intro x hx
        simp at hx
        rw [hx]
        exact hx0
    | cons x rest =>
      rcases hstep x (hmem x (List.mem_cons_self _ _)) with ⟨d, hdk, hde⟩
      refine ⟨d :: x :: rest, by simpa using hlen, ?_, ?_⟩
      · intro y hy
        rcases List.mem_cons.mp hy with hy | hy
        · rw [hy]
          exact hdk
        · exact hmem y hy
      · exact List.chain'_cons.mpr ⟨hde, hch⟩

/-- A list that is not duplicate-free has an element recurring after a first
occurrence. -/
theorem not_nodup_split {α : Type} {l : List α} (h : ¬ l.Nodup) :
    ∃ x l₁ l₂, l = l₁ ++ x :: l₂ ∧ x ∈ l₂ := by
  induction l with
  | nil => simp at h
  | cons a l ih =>
    by_cases ha : a ∈ l
    · exact ⟨a, [], l, rfl, ha⟩
    · have hne : ¬ l.Nodup := fun hl => h (List.nodup_cons.mpr ⟨ha, hl⟩)
      rcases ih hne with ⟨x, l₁, l₂, hdec, hx⟩
      exact ⟨x, a :: l₁, l₂, by rw [hdec]; rfl, hx⟩

/-- A chain from `a` transitively reaches each later element. -/
theorem chain'_transGen {α : Type} {r : α → α → Prop} :
    ∀ {l : List α} {a b : α}, List.Chain' r (a :: l) → b ∈ l →
      Relation.TransGen r a b := by
  intro l
  induction l with
  | nil =>
    intro a b _ hb
    simp at hb
  | cons c rest ih =>
    intro a b hch hb
    rw [List.chain'_cons] at hch
    rcases List.mem_cons.mp hb with hb | hb
    · rw [hb]
      exact Relation.TransGen.single hch.1
    · exact Relation.TransGen.head hch.1 (ih hch.2 hb)

theorem cycleExists_of_stuck {ds : DepsView} (h : hasCycleB ds = true) :
    CycleExists ds := by
  have hRne : kahnLeftover ds ≠ [] := by
    simpa [hasCycleB, List.isEmpty_iff] using h
  have hblocked := topoAuxFull_stuck ds.length ds le_rfl hRne
  have hstep : ∀ x ∈ (kahnLeftover ds).map Prod.fst,
      ∃ d ∈ (kahnLeftover ds).map Prod.fst, EdgeD (kahnLeftover ds) d x := by
    intro x hx
    rcases List.mem_map.mp hx with ⟨p, hp, hpx⟩
    have hfree := hblocked p hp
    have hany : p.2.any (fun d => hasKeyD (kahnLeftover ds) d) = true := by
      simpa [isFreeD] using hfree
    rcases List.any_eq_true.mp hany with ⟨d, hd, hkd⟩
    exact ⟨d, (hasKeyD_iff _ d).mp hkd, ⟨p, hp, hpx, hd⟩⟩
  rcases List.exists_mem_of_ne_nil _ hRne with ⟨p0, hp0⟩
  have hx0 : p0.1 ∈ (kahnLeftover ds).map Prod.fst := List.mem_map.mpr ⟨p0, hp0, rfl⟩
  rcases exists_walk (kahnLeftover ds) p0.1 hx0 hstep
      (((kahnLeftover ds).map Prod.fst).length + 1) with ⟨l, hlen, hmem, hch⟩
  have hnnd : ¬ l.Nodup := by
    intro hnd
    have := (List.subperm_of_subset hnd (fun x hx => hmem x hx)).length_le
    omega
  rcases not_nodup_split hnnd with ⟨x, l₁, l₂, hdec, hx2⟩
  have hch2 : List.Chain' (EdgeD (kahnLeftover ds)) (x :: l₂) := by
    rw [hdec] at hch
    exact (List.chain'_append.mp hch).2.1
  have hcyc : Relation.TransGen (EdgeD (kahnLeftover ds)) x x := chain'_transGen hch2 hx2
  have hsub : (kahnLeftover ds).Sublist ds := topoAuxFull_sublist _ _
  refine ⟨x, hcyc.mono ?_⟩
  rintro a b ⟨p, hp, h1, h2⟩
  exact ⟨p, hsub.subset hp, h1, h2⟩

/-- `nx.find_cycle` (as modelled by the stuck Kahn pass) succeeds exactly when
the dependency graph contains a directed cycle. -/
theorem cycleB_iff_cycleExists (ds : DepsView) :
    hasCycleB ds = true ↔ CycleExists ds :=
  ⟨cycleExists_of_stuck, hasCycleB_of_cycleExists⟩

-- ### Generic fold lemmas for running max / min

theorem le_foldl_max {α : Type} (f : α → Int) :
    ∀ (l : List α) (a : Int), a ≤ l.foldl (fun m d => max m (f d)) a := by
  intro l
  induction l with
  | nil => intro a; exact le_refl a
  | cons x xs ih =>
    intro a
    exact le_trans (le_max_left a (f x)) (ih (max a (f x)))

theorem elem_le_foldl_max {α : Type} (f : α → Int) :
    ∀ (l : List α) (a : Int) (d : α), d ∈ l → f d ≤ l.foldl (fun m d => max m (f d)) a := by
  intro l
  induction l with
  | nil => intro a d hd; simp at hd
  | cons x xs ih =>
    intro a d hd
    rcases List.mem_cons.mp hd with hd | hd
    · rw [hd]
      exact le_trans (le_max_right a (f x)) (le_foldl_max f xs _)
    · exact ih _ d hd

theorem foldl_max_cases {α : Type} (f : α → Int) :
    ∀ (l : List α) (a : Int),
      l.foldl (fun m d => max m (f d)) a = a ∨
        ∃ d ∈ l, l.foldl (fun m d => max m (f d)) a = f d := by
  intro l
  induction l with
  | nil => intro a; exact Or.inl rfl
  | cons x xs ih =>
    intro a
    rcases ih (max a (f x)) with h | ⟨d, hd, h⟩
    · rw [List.foldl_cons, h]
      rcases max_choice a (f x) with h' | h'
      · exact Or.inl h'
      · exact Or.inr ⟨x, List.mem_cons_self _ _, h'⟩
    · exact Or.inr ⟨d, List.mem_cons_of_mem _ hd, by rw [List.foldl_cons, h]⟩

theorem foldl_min_le_init {α : Type} (f : α → Int) :
    ∀ (l : List α) (a : Int), l.foldl (fun m d => min m (f d)) a ≤ a := by
  intro l
  induction l with
  | nil => intro a; exact le_refl a
  | cons x xs ih =>
    intro a
    exact le_trans (ih (min a (f x))) (min_le_left a (f x))

theorem foldl_min_le_elem {α : Type} (f : α → Int) :
    ∀ (l : List α) (a : Int) (d : α), d ∈ l → l.foldl (fun m d => min m (f d)) a ≤ f d := by
  intro l
  induction l with
  | nil => intro a d hd; simp at hd
  | cons x xs ih =>
    intro a d hd
    rcases List.mem_cons.mp hd with hd | hd
    · rw [hd]
      exact le_trans (foldl_min_le_init f xs _) (min_le_right a (f x))
    · exact ih _ d hd

theorem foldl_min_cases {α : Type} (f : α → Int) :
    ∀ (l : List α) (a : Int),
      l.foldl (fun m d => min m (f d)) a = a ∨
        ∃ d ∈ l, l.foldl (fun m d => min m (f d)) a = f d := by
  intro l
  induction l with
  | nil => intro a; exact Or.inl rfl
  | cons x xs ih =>
    intro a
    rcases ih (min a (f x)) with h | ⟨d, hd, h⟩
    · rw [List.foldl_cons, h]
      rcases min_choice a (f x) with h' | h'
      · exact Or.inl h'
      · exact Or.inr ⟨x, List.mem_cons_self _ _, h'⟩
    · exact Or.inr ⟨d, List.mem_cons_of_mem _ hd, by rw [List.foldl_cons, h]⟩

theorem foldl_acc_congr {α : Type} (op : Int → Int → Int) (f g : α → Int) :
    ∀ (l : List α) (a : Int), (∀ d ∈ l, f d = g d) →
      l.foldl (fun m d => op m (f d)) a = l.foldl (fun m d => op m (g d)) a := by
  intro l
  induction l with
  | nil => intro a _; rfl
  | cons x xs ih =>
    intro a h
    simp only [List.foldl_cons]
    rw [h x (List.mem_cons_self _ _), ih _ (fun d hd => h d (List.mem_cons_of_mem _ hd))]

-- ### Forward-pass characterisation

/-- `self.tasks[t]['est']`, with an (unreachable post-validation) default. -/
def getEst (ts : List (String × TaskInfo)) (t : String) : Int :=
  match lookupTask ts t with
  | some i => i.est
  | none => 0

/-- `self.tasks[t]['lft']`, with an (unreachable post-validation) default. -/
def getLft (ts : List (String × TaskInfo)) (t : String) : Int :=
  match lookupTask ts t with
  | some i => i.lft
  | none => 0

/-- The `est` value the forward loop body assigns, as a function of the state
it reads. -/
def forwardEstOf (ts : List (String × TaskInfo)) (info : TaskInfo) : Int :=
  if info.dependencies.isEmpty then 0
  else info.dependencies.foldl (fun m d => max m (getEft ts d)) 0

theorem forwardStep_eq_some {ts : List (String × TaskInfo)} {tid : String}
    {info : TaskInfo} (h : lookupTask ts tid = some info) :
    forwardStep ts tid = setTask ts tid
      { info with
        est := forwardEstOf ts info
        eft := forwardEstOf ts info + info.duration } := by
  unfold forwardStep forwardEstOf
  rw [h]

theorem forwardEstOf_congr {A B : List (String × TaskInfo)} {info : TaskInfo}
    (h : ∀ d ∈ info.dependencies, getEft A d = getEft B d) :
    forwardEstOf A info = forwardEstOf B info := by
  unfold forwardEstOf
  by_cases he : info.dependencies.isEmpty
  · simp [he]
  · simp only [he, if_false]
    exact foldl_acc_congr max (getEft A) (getEft B) _ 0 h

theorem hasTaskKey_eq_of_fst_eq {A B : List (String × TaskInfo)}
    (h : A.map Prod.fst = B.map Prod.fst) (k : String) :
    hasTaskKey A k = hasTaskKey B k := by
  have h1 : hasTaskKey A k = true ↔ hasTaskKey B k = true := by
    rw [hasTaskKey_iff, hasTaskKey_iff, h]
  by_cases hA : hasTaskKey A k = true
  · rw [hA, h1.mp hA]
  · have hA' : hasTaskKey A k = false := by simpa using hA
    have hB' : hasTaskKey B k = false := by
      by_contra hB
      exact hA (h1.mpr (by simpa using hB))
    rw [hA', hB']

theorem lookupTask_some_of_hasKey {ts : List (String × TaskInfo)} {k : String}
    (h : hasTaskKey ts k = true) : ∃ info, lookupTask ts k = some info := by
  have := (lookupTask_isSome_iff ts k).mpr h
  rcases hl : lookupTask ts k with _ | v
  · rw [hl] at this
    simp at this
  · exact ⟨v, rfl⟩

theorem getEft_stable_forward {L : List String} {ts : List (String × TaskInfo)}
    {d : String} (h : d ∉ L) :
    getEft (L.foldl forwardStep ts) d = getEft ts d := by
  unfold getEft
  rw [lookupTask_foldl_forwardStep_not_mem h]

/-- Forward-pass master lemma: folding the loop body over a duplicate-free key
list, in an order where every registered dependency is either processed
earlier or never processed, yields the `max`-recurrence over the final values
of the dependencies. -/
theorem forward_fold_char :
    ∀ (L : List String) (ts : List (String × TaskInfo)),
      L.Nodup →
      (∀ t ∈ L, hasTaskKey ts t = true) →
      (∀ t ∈ L, ∀ info, lookupTask ts t = some info →
        ∀ d ∈ info.dependencies, hasTaskKey ts d = true →
          (d ∈ L ∧ List.indexOf d L < List.indexOf t L) ∨ d ∉ L) →
      ∀ t ∈ L, ∀ info, lookupTask ts t = some info →
        lookupTask (L.foldl forwardStep ts) t = some
          { info with
            est := forwardEstOf (L.foldl forwardStep ts) info
            eft := forwardEstOf (L.foldl forwardStep ts) info + info.duration } := by
  intro L
  induction L with
  | nil =>
    intro ts _ _ _ t ht
    simp at ht
  | cons u L' ih =>
    intro ts hnd hkeys horder t ht info hinfo
    have hndu := List.nodup_cons.mp hnd
    rcases lookupTask_some_of_hasKey (hkeys u (List.mem_cons_self _ _)) with ⟨info_u, hu⟩
    -- every registered dependency of `u` is outside the order
    have hu_deps : ∀ d ∈ info_u.dependencies, hasTaskKey ts d = true → d ∉ u :: L' := by
      intro d hd hdk
      rcases horder u (List.mem_cons_self _ _) info_u hu d hd hdk with ⟨_, hlt⟩ | hout
      · rw [List.indexOf_cons_self] at hlt
        omega
      · exact hout
    set v : TaskInfo :=
      { info_u with
        est := forwardEstOf ts info_u
        eft := forwardEstOf ts info_u + info_u.duration } with hv
    have hstep : forwardStep ts u = setTask ts u v := forwardStep_eq_some hu
    have hfold : (u :: L').foldl forwardStep ts = L'.foldl forwardStep (setTask ts u v) := by
      rw [List.foldl_cons, hstep]
    have hkeys1 : (setTask ts u v).map Prod.fst = ts.map Prod.fst := setTask_map_fst ..
    have hkeysF : ((u :: L').foldl forwardStep ts).map Prod.fst = ts.map Prod.fst := by
      rw [hfold, foldl_forwardStep_map_fst, hkeys1]
    -- a dependency outside the order keeps its `eft` through the whole fold
    have hstable : ∀ d, d ∉ u :: L' → hasTaskKey ts d = true →
        getEft ((u :: L').foldl forwardStep ts) d = getEft ts d := by
      intro d hdL _
      rw [hfold]
      have hd' : d ∉ L' := fun hh => hdL (List.mem_cons_of_mem _ hh)
      have hdu : d ≠ u := fun hh => hdL (by rw [hh]; exact List.mem_cons_self _ _)
      rw [getEft_stable_forward hd']
      unfold getEft
      rw [lookupTask_setTask_ne hdu]
    -- a string that is no key at all keeps `eft = 0` (default) through the fold
    have hstable0 : ∀ d, hasTaskKey ts d = false →
        getEft ((u :: L').foldl forwardStep ts) d = getEft ts d := by
      intro d hdk
      have h1 : lookupTask ts d = none := (lookupTask_eq_none_iff ts d).mpr hdk
      have h2 : lookupTask ((u :: L').foldl forwardStep ts) d = none := by
        apply (lookupTask_eq_none_iff _ d).mpr
        rw [hasTaskKey_eq_of_fst_eq hkeysF]
        exact hdk
      unfold getEft
      rw [h1, h2]
    have hestF : forwardEstOf ts info_u =
        forwardEstOf (L'.foldl forwardStep (setTask ts u v)) info_u := by
      rw [← hfold]
      apply forwardEstOf_congr
      intro d hd
      rcases hk : hasTaskKey ts d with _ | _
      · exact (hstable0 d hk).symm
      · exact (hstable d (hu_deps d hd hk) hk).symm
    rcases List.mem_cons.mp ht with htu | htL'
    · -- the head task: set once, then stable
      rw [htu] at hinfo ⊢
      have hiu : info_u = info := by
        rw [hinfo] at hu
        exact (Option.some.inj hu).symm
      obtain rfl := hiu
      have hlk : lookupTask ((u :: L').foldl forwardStep ts) u = some v := by
        rw [hfold, lookupTask_foldl_forwardStep_not_mem hndu.1]
        exact lookupTask_setTask_self hu
      rw [hlk, hv, hfold, ← hestF]
    · -- a later task: inductive hypothesis on the updated state
      have htu : t ≠ u := by
        intro hh
        rw [hh] at htL'
        exact hndu.1 htL'
      have hts1 : lookupTask (setTask ts u v) t = lookupTask ts t := lookupTask_setTask_ne htu
      have ihres := ih (setTask ts u v) hndu.2
        (by
          intro x hx
          rw [hasTaskKey_eq_of_fst_eq hkeys1]
          exact hkeys x (List.mem_cons_of_mem _ hx))
        (by
          intro x hx info₁ hinfo₁ d hd hdk
          have hxu : x ≠ u := by
            intro hh
            rw [hh] at hx
            exact hndu.1 hx
          rw [lookupTask_setTask_ne hxu] at hinfo₁
          rw [hasTaskKey_eq_of_fst_eq hkeys1] at hdk
          rcases horder x (List.mem_cons_of_mem _ hx) info₁ hinfo₁ d hd hdk with ⟨hdL, hlt⟩ | hout
          · by_cases hdu : d = u
            · exact Or.inr (by rw [hdu]; exact hndu.1)
            · rcases List.mem_cons.mp hdL with hh | hh
              · exact absurd hh hdu
              · refine Or.inl ⟨hh, ?_⟩
                rw [List.indexOf_cons_ne _ (fun he => hdu he.symm),
                  List.indexOf_cons_ne _ (fun he => hxu he.symm)] at hlt
                omega
          · exact Or.inr (fun hh => hout (List.mem_cons_of_mem _ hh)))
        t htL' info (by rw [hts1]; exact hinfo)
      rw [hfold]
      exact ihres

-- ### Backward-pass characterisation

/-- In a duplicate-free list, reversing the list reverses the relative order
of any two elements. -/
theorem indexOf_reverse_eq {l : List String} (hnd : l.Nodup) {x : String}
    (hx : x ∈ l) :
    l.reverse.indexOf x = l.length - 1 - l.indexOf x := by
  have hidx : l.indexOf x < l.length := List.indexOf_lt_length.mpr hx
  have hrev_nd : l.reverse.Nodup := List.nodup_reverse.mpr hnd
  have hxrev : x ∈ l.reverse := List.mem_reverse.mpr hx
  have hjdx : l.reverse.indexOf x < l.reverse.length := List.indexOf_lt_length.mpr hxrev
  have hlen : l.reverse.length = l.length := List.length_reverse l
  have hb : l.length - 1 - l.indexOf x < l.reverse.length := by omega
  have h1 : l.reverse.get ⟨l.length - 1 - l.indexOf x, hb⟩ = x := by
    rw [List.get_eq_getElem, List.getElem_reverse]
    have harith : l.length - 1 - (l.length - 1 - l.indexOf x) = l.indexOf x := by omega
    rw [getElem_congr harith]
    exact List.getElem_indexOf hidx
  have h2 : l.reverse.get ⟨l.reverse.indexOf x, hjdx⟩ = x := by
    rw [List.get_eq_getElem]
    exact List.getElem_indexOf hjdx
  have hfin := (List.Nodup.get_inj_iff hrev_nd).mp (h2.trans h1.symm)
  have hv := Fin.mk_eq_mk.mp hfin
  omega

theorem indexOf_reverse_lt {l : List String} (hnd : l.Nodup) {a b : String}
    (ha : a ∈ l) (hb : b ∈ l) (h : l.indexOf a < l.indexOf b) :
    l.reverse.indexOf b < l.reverse.indexOf a := by
  rw [indexOf_reverse_eq hnd ha, indexOf_reverse_eq hnd hb]
  have h1 : l.indexOf a < l.length := List.indexOf_lt_length.mpr ha
  have h2 : l.indexOf b < l.length := List.indexOf_lt_length.mpr hb
  omega

/-- Membership in the successor list: `S` is a successor of `n` when `S`'s
entry declares `n` as a dependency. -/
theorem mem_successorsD_iff (ds : DepsView) (n S : String) :
    S ∈ successorsD ds n ↔ ∃ p ∈ ds, p.1 = S ∧ n ∈ p.2 := by
  unfold successorsD
  constructor
  · intro h
    rcases List.mem_map.mp h with ⟨p, hp, hps⟩
    rcases List.mem_filter.mp hp with ⟨hpd, hc⟩
    exact ⟨p, hpd, hps, List.mem_of_elem_eq_true hc⟩
  · rintro ⟨p, hp, hps, hn⟩
    refine List.mem_map.mpr ⟨p, List.mem_filter.mpr ⟨hp, ?_⟩, hps⟩
    exact List.elem_eq_true_of_mem hn

theorem mem_keys_of_successorsD {ds : DepsView} {n S : String}
    (h : S ∈ successorsD ds n) : S ∈ ds.map Prod.fst := by
  rcases (mem_successorsD_iff ds n S).mp h with ⟨p, hp, hps, _⟩
  exact List.mem_map.mpr ⟨p, hp, hps⟩

/-- The `lft` value the backward loop body assigns, as a function of the state
it reads. -/
def backwardLftOf (ds : DepsView) (ts : List (String × TaskInfo)) (tid : String)
    (info : TaskInfo) : Int :=
  match successorsD ds tid with
  | [] => info.lft
  | s0 :: rest => rest.foldl (fun m x => min m (getLst ts x)) (getLst ts s0)

theorem backwardStep_eq_some {ds : DepsView} {ts : List (String × TaskInfo)}
    {tid : String} {info : TaskInfo} (h : lookupTask ts tid = some info) :
    backwardStep ds ts tid = setTask ts tid
      { info with
        lft := backwardLftOf ds ts tid info
        lst := backwardLftOf ds ts tid info - info.duration
        flt := backwardLftOf ds ts tid info - info.duration - info.est } := by
  unfold backwardStep backwardLftOf
  rw [h]

theorem backwardLftOf_congr {ds : DepsView} {A B : List (String × TaskInfo)}
    {tid : String} {info : TaskInfo}
    (h : ∀ S ∈ successorsD ds tid, getLst A S = getLst B S) :
    backwardLftOf ds A tid info = backwardLftOf ds B tid info := by
  unfold backwardLftOf
  rcases hs : successorsD ds tid with _ | ⟨s0, rest⟩
  · rfl
  · dsimp only
    rw [h s0 (by rw [hs]; exact List.mem_cons_self _ _)]
    exact foldl_acc_congr min (getLst A) (getLst B) rest _
      (fun S hS => h S (by rw [hs]; exact List.mem_cons_of_mem _ hS))

theorem getLst_stable_backward {ds : DepsView} {L : List String}
    {ts : List (String × TaskInfo)} {d : String} (h : d ∉ L) :
    getLst (L.foldl (backwardStep ds) ts) d = getLst ts d := by
  unfold getLst
  rw [lookupTask_foldl_backwardStep_not_mem h]

/-- Backward-pass master lemma: folding the loop body over a duplicate-free
key list, in an order where every registered successor is either processed
earlier or never processed, yields the `min`-recurrence over the final values
of the successors, with unprocessed-successor-free tasks keeping their seeded
`lft`. -/
theorem backward_fold_char :
    ∀ (L : List String) (ds : DepsView) (ts : List (String × TaskInfo)),
      L.Nodup →
      (∀ t ∈ L, hasTaskKey ts t = true) →
      (∀ t ∈ L, ∀ S ∈ successorsD ds t, hasTaskKey ts S = true →
        (S ∈ L ∧ List.indexOf S L < List.indexOf t L) ∨ S ∉ L) →
      ∀ t ∈ L, ∀ info, lookupTask ts t = some info →
        lookupTask (L.foldl (backwardStep ds) ts) t = some
          { info with
            lft := backwardLftOf ds (L.foldl (backwardStep ds) ts) t info
            lst := backwardLftOf ds (L.foldl (backwardStep ds) ts) t info - info.duration
            flt := backwardLftOf ds (L.foldl (backwardStep ds) ts) t info
              - info.duration - info.est } := by
  intro L
  induction L with
  | nil =>
    intro ds ts _ _ _ t ht
    simp at ht
  | cons u L' ih =>
    intro ds ts hnd hkeys horder t ht info hinfo
    have hndu := List.nodup_cons.mp hnd
    rcases lookupTask_some_of_hasKey (hkeys u (List.mem_cons_self _ _)) with ⟨info_u, hu⟩
    have hu_succ : ∀ S ∈ successorsD ds u, hasTaskKey ts S = true → S ∉ u :: L' := by
      intro S hS hSk
      rcases horder u (List.mem_cons_self _ _) S hS hSk with ⟨_, hlt⟩ | hout
      · rw [List.indexOf_cons_self] at hlt
        omega
      · exact hout
    set v : TaskInfo :=
      { info_u with
        lft := backwardLftOf ds ts u info_u
        lst := backwardLftOf ds ts u info_u - info_u.duration
        flt := backwardLftOf ds ts u info_u - info_u.duration - info_u.est } with hv
    have hstep : backwardStep ds ts u = setTask ts u v := backwardStep_eq_some hu
    have hfold : (u :: L').foldl (backwardStep ds) ts
        = L'.foldl (backwardStep ds) (setTask ts u v) := by
      rw [List.foldl_cons, hstep]
    have hkeys1 : (setTask ts u v).map Prod.fst = ts.map Prod.fst := setTask_map_fst ..
    have hkeysF : ((u :: L').foldl (backwardStep ds) ts).map Prod.fst = ts.map Prod.fst := by
      rw [hfold, foldl_backwardStep_map_fst, hkeys1]
    have hstable : ∀ d, d ∉ u :: L' → hasTaskKey ts d = true →
        getLst ((u :: L').foldl (backwardStep ds) ts) d = getLst ts d := by
      intro d hdL _
      rw [hfold]
      have hd' : d ∉ L' := fun hh => hdL (List.mem_cons_of_mem _ hh)
      have hdu : d ≠ u := fun hh => hdL (by rw [hh]; exact List.mem_cons_self _ _)
      rw [getLst_stable_backward hd']
      unfold getLst
      rw [lookupTask_setTask_ne hdu]
    have hstable0 : ∀ d, hasTaskKey ts d = false →
        getLst ((u :: L').foldl (backwardStep ds) ts) d = getLst ts d := by
      intro d hdk
      have h1 : lookupTask ts d = none := (lookupTask_eq_none_iff ts d).mpr hdk
      have h2 : lookupTask ((u :: L').foldl (backwardStep ds) ts) d = none := by
        apply (lookupTask_eq_none_iff _ d).mpr
        rw [hasTaskKey_eq_of_fst_eq hkeysF]
        exact hdk
      unfold getLst
      rw [h1, h2]
    have hlftF : backwardLftOf ds ts u info_u =
        backwardLftOf ds (L'.foldl (backwardStep ds) (setTask ts u v)) u info_u := by
      rw [← hfold]
      apply backwardLftOf_congr
      intro S hS
      rcases hk : hasTaskKey ts S with _ | _
      · exact (hstable0 S hk).symm
      · exact (hstable S (hu_succ S hS hk) hk).symm
    rcases List.mem_cons.mp ht with htu | htL'
    · rw [htu] at hinfo ⊢
      have hiu : info_u = info := by
        rw [hinfo] at hu
        exact (Option.some.inj hu).symm
      obtain rfl := hiu
      have hlk : lookupTask ((u :: L').foldl (backwardStep ds) ts) u = some v := by
        rw [hfold, lookupTask_foldl_backwardStep_not_mem hndu.1]
        exact lookupTask_setTask_self hu
      rw [hlk, hv, hfold, ← hlftF]
    · have htu : t ≠ u := by
        intro hh
        rw [hh] at htL'
        exact hndu.1 htL'
      have hts1 : lookupTask (setTask ts u v) t = lookupTask ts t := lookupTask_setTask_ne htu
      have ihres := ih ds (setTask ts u v) hndu.2
        (by
          intro x hx
          rw [hasTaskKey_eq_of_fst_eq hkeys1]
          exact hkeys x (List.mem_cons_of_mem _ hx))
        (by
          intro x hx S hS hSk
          rw [hasTaskKey_eq_of_fst_eq hkeys1] at hSk
          rcases horder x (List.mem_cons_of_mem _ hx) S hS hSk with ⟨hSL, hlt⟩ | hout
          · by_cases hSu : S = u
            · exact Or.inr (by rw [hSu]; exact hndu.1)
            · have hxu : x ≠ u := by
                intro hh
                rw [hh] at hx
                exact hndu.1 hx
              rcases List.mem_cons.mp hSL with hh | hh
              · exact absurd hh hSu
              · refine Or.inl ⟨hh, ?_⟩
                rw [List.indexOf_cons_ne _ (fun he => hSu he.symm),
                  List.indexOf_cons_ne _ (fun he => hxu he.symm)] at hlt
                omega
          · exact Or.inr (fun hh => hout (List.mem_cons_of_mem _ hh)))
        t htL' info (by rw [hts1]; exact hinfo)
      rw [hfold]
      exact ihres

-- ### Validation characterisation

theorem findUnknownDepAux_none_iff (all : List (String × TaskInfo)) :
    ∀ (ts : List (String × TaskInfo)),
      findUnknownDepAux all ts = none ↔
        ∀ p ∈ ts, ∀ d ∈ p.2.dependencies, hasTaskKey all d = true := by
  intro ts
  induction ts with
  | nil => simp [findUnknownDepAux]
  | cons p ps ih =>
    unfold findUnknownDepAux
    rcases hf : p.2.dependencies.find? (fun d => !(hasTaskKey all d)) with _ | d
    · rw [List.find?_eq_none] at hf
      simp only [ih]
      constructor
      · intro h q hq
        rcases List.mem_cons.mp hq with hq | hq
        · intro d hd
          rw [hq] at hd
          have := hf d hd
          simpa using this
        · exact h q hq
      · intro h q hq
        exact h q (List.mem_cons_of_mem _ hq)
    · simp only [reduceCtorEq, false_iff, not_forall]
      have hd := List.mem_of_find?_eq_some hf
      have hdf := List.find?_some hf
      refine ⟨p, List.mem_cons_self _ _, d, hd, ?_⟩
      simp at hdf
      simp [hdf]

theorem findUnknownDep_none_iff (ts : List (String × TaskInfo)) :
    findUnknownDep ts = none ↔
      ∀ p ∈ ts, ∀ d ∈ p.2.dependencies, hasTaskKey ts d = true :=
  findUnknownDepAux_none_iff ts ts

theorem findUnknownDep_some_spec {ts : List (String × TaskInfo)} {t d : String}
    (h : findUnknownDep ts = some (t, d)) :
    ∃ p ∈ ts, p.1 = t ∧ d ∈ p.2.dependencies ∧ hasTaskKey ts d = false := by
  unfold findUnknownDep at h
  revert h
  have : ∀ (sub : List (String × TaskInfo)), (∀ p ∈ sub, p ∈ ts) →
      findUnknownDepAux ts sub = some (t, d) →
      ∃ p ∈ ts, p.1 = t ∧ d ∈ p.2.dependencies ∧ hasTaskKey ts d = false := by
    intro sub
    induction sub with
    | nil => intro _ h; simp [findUnknownDepAux] at h
    | cons p ps ih =>
      intro hmem h
      unfold findUnknownDepAux at h
      rcases hf : p.2.dependencies.find? (fun x => !(hasTaskKey ts x)) with _ | x
      · rw [hf] at h
        exact ih (fun q hq => hmem q (List.mem_cons_of_mem _ hq)) h
      · rw [hf] at h
        have hx := List.mem_of_find?_eq_some hf
        have hxf := List.find?_some hf
        simp only [Option.some.injEq, Prod.mk.injEq] at h
        refine ⟨p, hmem p (List.mem_cons_self _ _), h.1, ?_, ?_⟩
        · rw [← h.2]
          exact hx
        · rw [← h.2]
          simpa using hxf
  exact this ts (fun p hp => hp)

/-- The success flag of `validate_tasks`, split into its two checks. -/
theorem validate_ok_iff (s : PERTDiagram) :
    (validate_tasks s).2.1 = true ↔
      findUnknownDep s.tasks = none ∧ hasCycleB (depsView s.tasks) = false := by
  unfold validate_tasks
  rcases hf : findUnknownDep s.tasks with _ | td
  · by_cases hc : hasCycleB (depsView s.tasks)
    · simp [hc]
    · simp [hc]
  · rcases td with ⟨t, d⟩
    simp

-- ### Pipeline stage equations

theorem calculate_earliest_times_tasks (s : PERTDiagram) :
    (calculate_earliest_times s).tasks =
      (topoSort (depsView s.tasks)).foldl forwardStep s.tasks := rfl

theorem calculate_earliest_times_pd (s : PERTDiagram) :
    (calculate_earliest_times s).project_duration =
      match (topoSort (depsView s.tasks)).foldl forwardStep s.tasks with
      | [] => s.project_duration
      | p :: ps => ps.foldl (fun m q => max m q.2.eft) p.2.eft := rfl

theorem calculate_earliest_times_cp (s : PERTDiagram) :
    (calculate_earliest_times s).critical_path = s.critical_path := rfl

theorem calculate_latest_times_tasks (s : PERTDiagram) :
    (calculate_latest_times s).tasks =
      ((topoSort (depsView s.tasks)).reverse).foldl
        (backwardStep (depsView s.tasks))
        (s.tasks.map (fun p => (p.1, { p.2 with lft := s.project_duration }))) := rfl

theorem calculate_latest_times_pd (s : PERTDiagram) :
    (calculate_latest_times s).project_duration = s.project_duration := rfl

theorem calculate_latest_times_cp (s : PERTDiagram) :
    (calculate_latest_times s).critical_path = s.critical_path := rfl

theorem identify_critical_path_tasks (s : PERTDiagram) :
    (identify_critical_path s).tasks = s.tasks := by
  unfold identify_critical_path
  dsimp only
  split
  · rfl
  · split <;> rfl

theorem identify_critical_path_pd (s : PERTDiagram) :
    (identify_critical_path s).project_duration = s.project_duration := by
  unfold identify_critical_path
  dsimp only
  split
  · rfl
  · split <;> rfl

/-- Looking up in the `lft`-seeded copy of the registry. -/
theorem lookupTask_seed (ts : List (String × TaskInfo)) (pd : Int) (t : String) :
    lookupTask (ts.map (fun p => (p.1, { p.2 with lft := pd }))) t =
      (lookupTask ts t).map (fun i => { i with lft := pd }) := by
  induction ts with
  | nil => rfl
  | cons p ps ih =>
    by_cases h : p.1 = t <;> simp [lookupTask, h, ih]

-- ### Characterisation of the passes on a validated registry

/-- Context facts shared by the pass characterisations: the Kahn order of a
validated registry is a duplicate-free arrangement of exactly the keys,
in dependency-respecting order. -/
theorem topo_ctx (s : PERTDiagram)
    (hnd : (s.tasks.map Prod.fst).Nodup)
    (hacyc : hasCycleB (depsView s.tasks) = false) :
    (topoSort (depsView s.tasks)).Nodup ∧
    (∀ t ∈ topoSort (depsView s.tasks), hasTaskKey s.tasks t = true) ∧
    (∀ k, k ∈ s.tasks.map Prod.fst → k ∈ topoSort (depsView s.tasks)) := by
  have hndds : ((depsView s.tasks).map Prod.fst).Nodup := by
    rw [depsView_map_fst]
    exact hnd
  refine ⟨topoSort_nodup hndds, ?_, ?_⟩
  · intro t ht
    have := topoSort_subset _ ht
    rw [depsView_map_fst] at this
    exact (hasTaskKey_iff _ t).mpr this
  · intro k hk
    apply mem_topoSort_of_acyclic hacyc
    rw [depsView_map_fst]
    exact hk

/-- The registry entry `(t, deps t)` of the graph view. -/
theorem mem_depsView_of_lookup {ts : List (String × TaskInfo)} {t : String}
    {info : TaskInfo} (h : lookupTask ts t = some info) :
    (t, info.dependencies) ∈ depsView ts := by
  have := lookupTask_mem h
  exact List.mem_map.mpr ⟨(t, info), this, rfl⟩

/-- Forward pass on a validated registry: every task's `est`/`eft` satisfy the
`max`-recurrence over the computed state. -/
theorem forward_char_s (s : PERTDiagram)
    (hnd : (s.tasks.map Prod.fst).Nodup)
    (_hdeps : findUnknownDep s.tasks = none)
    (hacyc : hasCycleB (depsView s.tasks) = false) :
    ∀ t info, lookupTask s.tasks t = some info →
      lookupTask (calculate_earliest_times s).tasks t = some
        { info with
          est := forwardEstOf (calculate_earliest_times s).tasks info
          eft := forwardEstOf (calculate_earliest_times s).tasks info + info.duration } := by
  obtain ⟨hndL, hLkeys, hcomplete⟩ := topo_ctx s hnd hacyc
  have hndds : ((depsView s.tasks).map Prod.fst).Nodup := by
    rw [depsView_map_fst]
    exact hnd
  intro t info hinfo
  rw [calculate_earliest_times_tasks]
  apply forward_fold_char _ _ hndL hLkeys
  · intro x hx infox hinfox d hd hdk
    left
    have hdK : d ∈ s.tasks.map Prod.fst := (hasTaskKey_iff _ d).mp hdk
    have hdL : d ∈ topoSort (depsView s.tasks) := hcomplete d hdK
    refine ⟨hdL, ?_⟩
    apply topoSort_order hndds (x, infox.dependencies)
      (mem_depsView_of_lookup hinfox) d hd
    · rw [depsView_map_fst]
      exact hdK
    · exact hdL
    · exact hx
  · exact hcomplete t (mem_keys_of_lookupTask hinfo)
  · exact hinfo

/-- Keys are preserved by the whole forward stage. -/
theorem calculate_earliest_times_map_fst (s : PERTDiagram) :
    (calculate_earliest_times s).tasks.map Prod.fst = s.tasks.map Prod.fst := by
  rw [calculate_earliest_times_tasks]
  exact foldl_forwardStep_map_fst ..

theorem calculate_earliest_times_depsView (s : PERTDiagram) :
    depsView (calculate_earliest_times s).tasks = depsView s.tasks := by
  rw [calculate_earliest_times_tasks]
  exact depsView_foldl_forwardStep ..

/-- Backward pass over the forward-pass output: every task's `lft`/`lst`/`flt`
satisfy the `min`-recurrence over the computed state.  Stated for the composed
state `calculate_latest_times (calculate_earliest_times s)`. -/
theorem backward_char_s (s : PERTDiagram)
    (hnd : (s.tasks.map Prod.fst).Nodup)
    (_hdeps : findUnknownDep s.tasks = none)
    (hacyc : hasCycleB (depsView s.tasks) = false) :
    ∀ t infoF, lookupTask (calculate_earliest_times s).tasks t = some infoF →
      lookupTask (calculate_latest_times (calculate_earliest_times s)).tasks t = some
        { infoF with
          lft := backwardLftOf (depsView s.tasks)
            (calculate_latest_times (calculate_earliest_times s)).tasks t
            { infoF with lft := (calculate_earliest_times s).project_duration }
          lst := backwardLftOf (depsView s.tasks)
            (calculate_latest_times (calculate_earliest_times s)).tasks t
            { infoF with lft := (calculate_earliest_times s).project_duration }
            - infoF.duration
          flt := backwardLftOf (depsView s.tasks)
            (calculate_latest_times (calculate_earliest_times s)).tasks t
            { infoF with lft := (calculate_earliest_times s).project_duration }
            - infoF.duration - infoF.est } := by
  obtain ⟨hndL, hLkeys, hcomplete⟩ := topo_ctx s hnd hacyc
  have hndds : ((depsView s.tasks).map Prod.fst).Nodup := by
    rw [depsView_map_fst]
    exact hnd
  intro t infoF hinfoF
  have hkeysF : (calculate_earliest_times s).tasks.map Prod.fst = s.tasks.map Prod.fst :=
    calculate_earliest_times_map_fst s
  have hseedkeys :
      ((calculate_earliest_times s).tasks.map
        (fun p => (p.1, { p.2 with lft := (calculate_earliest_times s).project_duration }))).map
          Prod.fst = s.tasks.map Prod.fst := by
    rw [seed_map_fst]
    exact hkeysF
  have htasks2 := calculate_latest_times_tasks (calculate_earliest_times s)
  rw [calculate_earliest_times_depsView] at htasks2
  rw [htasks2]
  have happ := backward_fold_char ((topoSort (depsView s.tasks)).reverse)
    (depsView s.tasks)
    ((calculate_earliest_times s).tasks.map
      (fun p => (p.1, { p.2 with lft := (calculate_earliest_times s).project_duration })))
    (List.nodup_reverse.mpr hndL)
    (by
      intro x hx
      rw [hasTaskKey_eq_of_fst_eq hseedkeys]
      exact hLkeys x (List.mem_reverse.mp hx))
    (by
      intro x hx S hS hSk
      left
      rw [hasTaskKey_eq_of_fst_eq hseedkeys] at hSk
      have hSK : S ∈ s.tasks.map Prod.fst := (hasTaskKey_iff _ S).mp hSk
      have hSL : S ∈ topoSort (depsView s.tasks) := hcomplete S hSK
      have hxL : x ∈ topoSort (depsView s.tasks) := List.mem_reverse.mp hx
      have hxK : x ∈ (depsView s.tasks).map Prod.fst := topoSort_subset _ hxL
      rcases (mem_successorsD_iff _ x S).mp hS with ⟨p, hp, hpS, hxp⟩
      have hord := topoSort_order hndds p hp x hxp hxK
        (by rw [depsView_map_fst] at hxK; exact hcomplete x hxK) ?_
      · rw [hpS] at hord
        exact ⟨List.mem_reverse.mpr hSL,
          indexOf_reverse_lt hndL hxL hSL hord⟩
      · rw [hpS]
        exact hSL)
    t (List.mem_reverse.mpr (hcomplete t (by rw [← hkeysF]; exact mem_keys_of_lookupTask hinfoF)))
    { infoF with lft := (calculate_earliest_times s).project_duration }
    (by
      rw [lookupTask_seed, hinfoF]
      rfl)
  exact happ

theorem calculate_latest_times_map_fst (s : PERTDiagram) :
    (calculate_latest_times s).tasks.map Prod.fst = s.tasks.map Prod.fst := by
  rw [calculate_latest_times_tasks, foldl_backwardStep_map_fst, seed_map_fst]

/-- The backward pass does not change any `eft`. -/
theorem eft_frame_s (s : PERTDiagram)
    (hnd : (s.tasks.map Prod.fst).Nodup)
    (hdeps : findUnknownDep s.tasks = none)
    (hacyc : hasCycleB (depsView s.tasks) = false) :
    ∀ d, getEft (calculate_latest_times (calculate_earliest_times s)).tasks d =
      getEft (calculate_earliest_times s).tasks d := by
  intro d
  rcases hk : hasTaskKey (calculate_earliest_times s).tasks d with _ | _
  · unfold getEft
    rw [(lookupTask_eq_none_iff _ _).mpr hk,
      (lookupTask_eq_none_iff _ _).mpr
        (by rw [hasTaskKey_eq_of_fst_eq (calculate_latest_times_map_fst _)]; exact hk)]
  · rcases lookupTask_some_of_hasKey hk with ⟨i, hi⟩
    have hb := backward_char_s s hnd hdeps hacyc d i hi
    unfold getEft
    rw [hi, hb]

/-- Project-duration characterisation after the forward pass. -/
theorem pd_char_s (s : PERTDiagram) :
    (s.tasks = [] → (calculate_earliest_times s).project_duration = s.project_duration) ∧
    (s.tasks ≠ [] →
      (∀ q ∈ (calculate_earliest_times s).tasks,
        q.2.eft ≤ (calculate_earliest_times s).project_duration) ∧
      ∃ q ∈ (calculate_earliest_times s).tasks,
        (calculate_earliest_times s).project_duration = q.2.eft) := by
  constructor
  · intro hempty
    rw [calculate_earliest_times_pd]
    rcases hFF : (topoSort (depsView s.tasks)).foldl forwardStep s.tasks with _ | ⟨p, ps⟩
    · rfl
    · exfalso
      have hmap := foldl_forwardStep_map_fst (topoSort (depsView s.tasks)) s.tasks
      rw [hFF, hempty] at hmap
      simp at hmap
  · intro hne
    rcases hF : (topoSort (depsView s.tasks)).foldl forwardStep s.tasks with _ | ⟨p, ps⟩
    · exfalso
      apply hne
      have hmap := foldl_forwardStep_map_fst (topoSort (depsView s.tasks)) s.tasks
      rw [hF] at hmap
      simpa using hmap.symm
    · rw [calculate_earliest_times_pd, calculate_earliest_times_tasks, hF]
      constructor
      · intro q hq
        rcases List.mem_cons.mp hq with hq | hq
        · rw [hq]
          exact le_foldl_max (fun q => q.2.eft) ps p.2.eft
        · exact elem_le_foldl_max (fun q => q.2.eft) ps p.2.eft q hq
      · rcases foldl_max_cases (fun q => q.2.eft) ps p.2.eft with h | ⟨q, hq, h⟩
        · exact ⟨p, List.mem_cons_self _ _, h⟩
        · exact ⟨q, List.mem_cons_of_mem _ hq, h⟩

/-- Project-duration bounds transferred to the backward-pass output. -/
theorem pd_final_char_s (s : PERTDiagram)
    (hnd : (s.tasks.map Prod.fst).Nodup)
    (hdeps : findUnknownDep s.tasks = none)
    (hacyc : hasCycleB (depsView s.tasks) = false) :
    (s.tasks = [] → (calculate_earliest_times s).project_duration = s.project_duration) ∧
    (s.tasks ≠ [] →
      (∀ q ∈ (calculate_latest_times (calculate_earliest_times s)).tasks,
        q.2.eft ≤ (calculate_earliest_times s).project_duration) ∧
      ∃ q ∈ (calculate_latest_times (calculate_earliest_times s)).tasks,
        (calculate_earliest_times s).project_duration = q.2.eft) := by
  have hnd1 : ((calculate_earliest_times s).tasks.map Prod.fst).Nodup := by
    rw [calculate_earliest_times_map_fst]
    exact hnd
  have hnd2 : ((calculate_latest_times (calculate_earliest_times s)).tasks.map Prod.fst).Nodup := by
    rw [calculate_latest_times_map_fst, calculate_earliest_times_map_fst]
    exact hnd
  refine ⟨(pd_char_s s).1, ?_⟩
  intro hne
  obtain ⟨hub, hex⟩ := (pd_char_s s).2 hne
  constructor
  · intro q hq
    have hlk2 : lookupTask (calculate_latest_times (calculate_earliest_times s)).tasks q.1
        = some q.2 := lookupTask_of_mem_nodup hnd2 (by rw [Prod.mk.eta]; exact hq)
    have hk1 : hasTaskKey (calculate_earliest_times s).tasks q.1 = true := by
      rw [hasTaskKey_eq_of_fst_eq
        ((calculate_latest_times_map_fst (calculate_earliest_times s)).symm)]
      apply (hasTaskKey_iff _ _).mpr
      exact List.mem_map.mpr ⟨q, hq, rfl⟩
    rcases lookupTask_some_of_hasKey hk1 with ⟨i, hi⟩
    have hfr := eft_frame_s s hnd hdeps hacyc q.1
    unfold getEft at hfr
    rw [hlk2, hi] at hfr
    dsimp only at hfr
    rw [hfr]
    exact hub (q.1, i) (lookupTask_mem hi)
  · rcases hex with ⟨q, hq, hpd⟩
    have hlk1 : lookupTask (calculate_earliest_times s).tasks q.1 = some q.2 :=
      lookupTask_of_mem_nodup hnd1 (by rw [Prod.mk.eta]; exact hq)
    have hk2 : hasTaskKey (calculate_latest_times (calculate_earliest_times s)).tasks q.1
        = true := by
      rw [hasTaskKey_eq_of_fst_eq (calculate_latest_times_map_fst (calculate_earliest_times s))]
      apply (hasTaskKey_iff _ _).mpr
      exact List.mem_map.mpr ⟨q, hq, rfl⟩
    rcases lookupTask_some_of_hasKey hk2 with ⟨i2, hi2⟩
    have hfr := eft_frame_s s hnd hdeps hacyc q.1
    unfold getEft at hfr
    rw [hi2, hlk1] at hfr
    dsimp only at hfr
    refine ⟨(q.1, i2), lookupTask_mem hi2, ?_⟩
    rw [hpd]
    exact hfr.symm

/-- `analyze` on a state that validates. -/
theorem analyze_of_valid {s : PERTDiagram} (h : (validate_tasks s).2.1 = true) :
    analyze s = (analyzePipeline s, true, "") := by
  unfold analyze
  dsimp only
  simp [h]

theorem validate_tasks_state (s : PERTDiagram) : (validate_tasks s).1 = s := by
  unfold validate_tasks
  rcases findUnknownDep s.tasks with _ | ⟨t, d⟩
  · dsimp only
    split <;> rfl
  · rfl

/-- `analyze` on a state that fails validation. -/
theorem analyze_of_invalid {s : PERTDiagram} (h : (validate_tasks s).2.1 = false) :
    analyze s = (s, false, (validate_tasks s).2.2) := by
  unfold analyze
  dsimp only
  simp [h]

-- ### `dictInsert` (Python dict assignment) lemmas

theorem dictInsert_ne_nil (ts : List (String × TaskInfo)) (k : String) (v : TaskInfo) :
    dictInsert ts k v ≠ [] := by
  unfold dictInsert
  by_cases h : hasTaskKey ts k
  · rw [if_pos h]
    intro hh
    rw [hasTaskKey_iff] at h
    rcases List.mem_map.mp h with ⟨p, hp, _⟩
    rw [List.map_eq_nil_iff.mp hh] at hp
    simp at hp
  · rw [if_neg h]
    simp

theorem dictInsert_map_fst_of_mem {ts : List (String × TaskInfo)} {k : String}
    {v : TaskInfo} (h : hasTaskKey ts k = true) :
    (dictInsert ts k v).map Prod.fst = ts.map Prod.fst := by
  unfold dictInsert
  rw [if_pos h]
  clear h
  induction ts with
  | nil => rfl
  | cons p ps ih =>
    simp only [List.map_cons, List.cons.injEq]
    constructor
    · by_cases hp : p.1 = k <;> simp [hp]
    · exact ih

theorem dictInsert_map_fst_of_not_mem {ts : List (String × TaskInfo)} {k : String}
    {v : TaskInfo} (h : hasTaskKey ts k = false) :
    (dictInsert ts k v).map Prod.fst = ts.map Prod.fst ++ [k] := by
  unfold dictInsert
  rw [h]
  simp

theorem dictInsert_keys_nodup {ts : List (String × TaskInfo)} {k : String} {v : TaskInfo}
    (hnd : (ts.map Prod.fst).Nodup) : ((dictInsert ts k v).map Prod.fst).Nodup := by
  rcases h : hasTaskKey ts k with _ | _
  · rw [dictInsert_map_fst_of_not_mem h]
    apply List.Nodup.append hnd (List.nodup_singleton k)
    intro x hx hk
    rw [List.mem_singleton] at hk
    rw [hk] at hx
    have := (hasTaskKey_iff ts k).mpr hx
    rw [h] at this
    simp at this
  · rw [dictInsert_map_fst_of_mem h]
    exact hnd

theorem lookupTask_dictInsert_self (ts : List (String × TaskInfo)) (k : String)
    (v : TaskInfo) : lookupTask (dictInsert ts k v) k = some v := by
  unfold dictInsert
  rcases h : hasTaskKey ts k with _ | _
  · simp only [Bool.false_eq_true, if_neg, not_false_iff]
    induction ts with
    | nil => simp [lookupTask]
    | cons p ps ih =>
      have hps : hasTaskKey ps k = false := by
        unfold hasTaskKey at h ⊢
        simp only [List.any_cons, Bool.or_eq_false_iff] at h
        exact h.2
      have hpk : ¬ p.1 = k := by
        unfold hasTaskKey at h
        simp only [List.any_cons, Bool.or_eq_false_iff] at h
        simpa using h.1
      simp only [List.cons_append, lookupTask, if_neg hpk]
      exact ih hps
  · simp only [if_pos]
    induction ts with
    | nil => simp [hasTaskKey] at h
    | cons p ps ih =>
      by_cases hp : p.1 = k
      · simp [lookupTask, hp]
      · have hps : hasTaskKey ps k = true := by
          unfold hasTaskKey at h
          simp only [List.any_cons] at h
          rcases Bool.or_eq_true_iff.mp h with h' | h'
          · exact absurd (by simpa using h') hp
          · exact h'
        simp only [List.map_cons, if_neg hp, lookupTask]
        exact ih hps

theorem lookupTask_dictInsert_ne (ts : List (String × TaskInfo)) (k k' : String)
    (v : TaskInfo) (h : k' ≠ k) :
    lookupTask (dictInsert ts k v) k' = lookupTask ts k' := by
  unfold dictInsert
  by_cases hk : hasTaskKey ts k
  · rw [if_pos hk]
    clear hk
    induction ts with
    | nil => rfl
    | cons p ps ih =>
      by_cases hp : p.1 = k
      · have hkk : ¬ k = k' := fun hh => h hh.symm
        have hpk' : ¬ p.1 = k' := by rw [hp]; exact hkk
        simp only [List.map_cons, if_pos hp, lookupTask, if_neg hkk, if_neg hpk']
        exact ih
      · simp only [List.map_cons, if_neg hp, lookupTask]
        by_cases hq : p.1 = k' <;> simp [hq, ih]
  · rw [if_neg hk]
    induction ts with
    | nil =>
      simp only [List.nil_append, lookupTask]
      rw [if_neg (fun hh => h hh.symm)]
    | cons p ps ih =>
      have hps : ¬ hasTaskKey ps k = true := by
        intro hh
        apply hk
        unfold hasTaskKey at hh ⊢
        simp only [List.any_cons]
        rw [hh]
        simp
      simp only [List.cons_append, lookupTask]
      by_cases hq : p.1 = k' <;> simp [hq, ih hps]

-- ### Invariants of reachable states

theorem analyze_fst_tasks_map_fst (s : PERTDiagram) :
    (analyze s).1.tasks.map Prod.fst = s.tasks.map Prod.fst := by
  rcases hv : (validate_tasks s).2.1 with _ | _
  · rw [analyze_of_invalid hv]
  · rw [analyze_of_valid hv]
    show (analyzePipeline s).tasks.map Prod.fst = _
    unfold analyzePipeline
    rw [identify_critical_path_tasks, calculate_latest_times_map_fst,
      calculate_earliest_times_map_fst]

/-- Keys of a reachable registry are duplicate-free (it is a Python dict). -/
theorem reachable_keysNodup {s : PERTDiagram} (h : Reachable s) :
    (s.tasks.map Prod.fst).Nodup := by
  induction h with
  | init => exact List.nodup_nil
  | add s id dur deps _ ih => exact dictInsert_keys_nodup ih
  | analyze s _ ih =>
    rw [analyze_fst_tasks_map_fst]
    exact ih

/-- A reachable state with an empty registry has never had its scalars
computed: `project_duration = 0`. -/
theorem reachable_empty_pd {s : PERTDiagram} (h : Reachable s) :
    s.tasks = [] → s.project_duration = 0 := by
  induction h with
  | init => intro _; rfl
  | add s id dur deps _ ih =>
    intro hh
    exact absurd hh (dictInsert_ne_nil s.tasks id (mkTaskInfo dur deps))
  | analyze s _ ih =>
    intro hh
    have hkeys := analyze_fst_tasks_map_fst s
    rw [hh] at hkeys
    have hempty : s.tasks = [] := by
      simpa using hkeys.symm
    rcases hv : (validate_tasks s).2.1 with _ | _
    · rw [analyze_of_invalid hv]
      exact ih hempty
    · rw [analyze_of_valid hv]
      show (analyzePipeline s).project_duration = 0
      unfold analyzePipeline
      rw [identify_critical_path_pd, calculate_latest_times_pd]
      rw [(pd_char_s s).1 hempty]
      exact ih hempty

-- ### The computed entry of every task after a successful analysis

theorem analyzePipeline_tasks (s : PERTDiagram) :
    (analyzePipeline s).tasks =
      (calculate_latest_times (calculate_earliest_times s)).tasks :=
  identify_critical_path_tasks _

theorem analyzePipeline_pd (s : PERTDiagram) :
    (analyzePipeline s).project_duration =
      (calculate_earliest_times s).project_duration := by
  show (identify_critical_path _).project_duration = _
  rw [identify_critical_path_pd, calculate_latest_times_pd]

theorem analyzePipeline_map_fst (s : PERTDiagram) :
    (analyzePipeline s).tasks.map Prod.fst = s.tasks.map Prod.fst := by
  rw [analyzePipeline_tasks, calculate_latest_times_map_fst, calculate_earliest_times_map_fst]

/-- The backward assignment with the seeded `lft` (the project duration) made
explicit: the value a task's `lft` ends at. -/
def seededLftOf (ds : DepsView) (ts : List (String × TaskInfo)) (pd : Int)
    (tid : String) : Int :=
  match successorsD ds tid with
  | [] => pd
  | s0 :: rest => rest.foldl (fun m x => min m (getLst ts x)) (getLst ts s0)

theorem backwardLftOf_seeded (ds : DepsView) (ts : List (String × TaskInfo))
    (pd : Int) (tid : String) (i : TaskInfo) :
    backwardLftOf ds ts tid { i with lft := pd } = seededLftOf ds ts pd tid := by
  unfold backwardLftOf seededLftOf
  rcases successorsD ds tid with _ | ⟨s0, rest⟩ <;> rfl

/-- The full computed entry of a task after the three computation stages. -/
theorem final_entry_char (s : PERTDiagram)
    (hnd : (s.tasks.map Prod.fst).Nodup)
    (hdeps : findUnknownDep s.tasks = none)
    (hacyc : hasCycleB (depsView s.tasks) = false) :
    ∀ t info, lookupTask s.tasks t = some info →
      lookupTask (analyzePipeline s).tasks t = some
        { info with
          est := forwardEstOf (calculate_earliest_times s).tasks info
          eft := forwardEstOf (calculate_earliest_times s).tasks info + info.duration
          lft := seededLftOf (depsView s.tasks) (analyzePipeline s).tasks
            (analyzePipeline s).project_duration t
          lst := seededLftOf (depsView s.tasks) (analyzePipeline s).tasks
            (analyzePipeline s).project_duration t - info.duration
          flt := seededLftOf (depsView s.tasks) (analyzePipeline s).tasks
            (analyzePipeline s).project_duration t - info.duration
            - forwardEstOf (calculate_earliest_times s).tasks info } := by
  intro t info hinfo
  have hf := forward_char_s s hnd hdeps hacyc t info hinfo
  have hb := backward_char_s s hnd hdeps hacyc t _ hf
  rw [analyzePipeline_tasks, analyzePipeline_pd]
  rw [hb, backwardLftOf_seeded]

/-- Conversely, every entry of the computed registry comes from an original
entry and has exactly the computed shape. -/
theorem final_entry_orig (s : PERTDiagram)
    (hnd : (s.tasks.map Prod.fst).Nodup)
    (hdeps : findUnknownDep s.tasks = none)
    (hacyc : hasCycleB (depsView s.tasks) = false) :
    ∀ t info', lookupTask (analyzePipeline s).tasks t = some info' →
      ∃ info, lookupTask s.tasks t = some info ∧
        info' = { info with
          est := forwardEstOf (calculate_earliest_times s).tasks info
          eft := forwardEstOf (calculate_earliest_times s).tasks info + info.duration
          lft := seededLftOf (depsView s.tasks) (analyzePipeline s).tasks
            (analyzePipeline s).project_duration t
          lst := seededLftOf (depsView s.tasks) (analyzePipeline s).tasks
            (analyzePipeline s).project_duration t - info.duration
          flt := seededLftOf (depsView s.tasks) (analyzePipeline s).tasks
            (analyzePipeline s).project_duration t - info.duration
            - forwardEstOf (calculate_earliest_times s).tasks info } := by
  intro t info' hinfo'
  have hkt : hasTaskKey s.tasks t = true := by
    rw [← hasTaskKey_eq_of_fst_eq (analyzePipeline_map_fst s)]
    apply (lookupTask_isSome_iff _ t).mp
    rw [hinfo']
    rfl
  rcases lookupTask_some_of_hasKey hkt with ⟨info, hinfo⟩
  have := final_entry_char s hnd hdeps hacyc t info hinfo
  rw [hinfo'] at this
  exact ⟨info, hinfo, Option.some.inj this⟩

/-- Every computed `est` is nonnegative. -/
theorem final_est_nonneg (s : PERTDiagram)
    (hnd : (s.tasks.map Prod.fst).Nodup)
    (hdeps : findUnknownDep s.tasks = none)
    (hacyc : hasCycleB (depsView s.tasks) = false) :
    ∀ t info', lookupTask (analyzePipeline s).tasks t = some info' → 0 ≤ info'.est := by
  intro t info' hinfo'
  rcases final_entry_orig s hnd hdeps hacyc t info' hinfo' with ⟨info, _, hshape⟩
  rw [hshape]
  show 0 ≤ forwardEstOf (calculate_earliest_times s).tasks info
  unfold forwardEstOf
  by_cases he : info.dependencies.isEmpty
  · simp [he]
  · simp only [he, if_false]
    exact le_foldl_max _ _ 0

/-- With positive durations, every computed `eft` is positive. -/
theorem final_eft_pos (s : PERTDiagram)
    (hnd : (s.tasks.map Prod.fst).Nodup)
    (hdeps : findUnknownDep s.tasks = none)
    (hacyc : hasCycleB (depsView s.tasks) = false)
    (hpos : ∀ p ∈ s.tasks, 0 < p.2.duration) :
    ∀ t info', lookupTask (analyzePipeline s).tasks t = some info' → 0 < info'.eft := by
  intro t info' hinfo'
  have hnn := final_est_nonneg s hnd hdeps hacyc t info' hinfo'
  rcases final_entry_orig s hnd hdeps hacyc t info' hinfo' with ⟨info, hinfo, hshape⟩
  have hdur : 0 < info.duration := hpos (t, info) (lookupTask_mem hinfo)
  rw [hshape] at hnn ⊢
  show 0 < forwardEstOf (calculate_earliest_times s).tasks info + info.duration
  have : 0 ≤ forwardEstOf (calculate_earliest_times s).tasks info := hnn
  omega

theorem forwardEstOf_final (s : PERTDiagram)
    (hnd : (s.tasks.map Prod.fst).Nodup)
    (hdeps : findUnknownDep s.tasks = none)
    (hacyc : hasCycleB (depsView s.tasks) = false) (info : TaskInfo) :
    forwardEstOf (calculate_earliest_times s).tasks info =
      forwardEstOf (analyzePipeline s).tasks info := by
  rw [analyzePipeline_tasks]
  exact (forwardEstOf_congr (fun d _ => eft_frame_s s hnd hdeps hacyc d)).symm

/-- C1: for every validated, acyclic, reachable project with positive
durations, after a successful `analyze()` every task satisfies the forward
recurrence — `est = 0` without dependencies, otherwise `est` is the maximum of
the dependencies' `eft` — with `eft = est + duration`; and `project_duration`
is the maximum `eft` over all tasks, or `0` for a project without tasks. -/
theorem C1_forward_pass_recurrence (s : PERTDiagram)
    (hreach : Reachable s)
    (hval : (validate_tasks s).2.1 = true)
    (hpos : ∀ p ∈ s.tasks, 0 < p.2.duration) :
    (∀ t info', lookupTask (analyze s).1.tasks t = some info' →
      (info'.dependencies = [] → info'.est = 0) ∧
      (info'.dependencies ≠ [] →
        (∀ d ∈ info'.dependencies, getEft (analyze s).1.tasks d ≤ info'.est) ∧
        ∃ d ∈ info'.dependencies, getEft (analyze s).1.tasks d = info'.est) ∧
      info'.eft = info'.est + info'.duration) ∧
    (∀ q ∈ (analyze s).1.tasks, q.2.eft ≤ (analyze s).1.project_duration) ∧
    ((analyze s).1.tasks ≠ [] →
      ∃ q ∈ (analyze s).1.tasks, (analyze s).1.project_duration = q.2.eft) ∧
    ((analyze s).1.tasks = [] → (analyze s).1.project_duration = 0) := by
  have hnd := reachable_keysNodup hreach
  obtain ⟨hdeps, hacyc⟩ := (validate_ok_iff s).mp hval
  have hstate : (analyze s).1 = analyzePipeline s := by rw [analyze_of_valid hval]
  rw [hstate]
  refine ⟨?_, ?_⟩
  · intro t info' hinfo'
    rcases final_entry_orig s hnd hdeps hacyc t info' hinfo' with ⟨info, hinfo, hshape⟩
    have hdepseq : info'.dependencies = info.dependencies := by rw [hshape]
    refine ⟨?_, ?_, ?_⟩
    · intro hde
      rw [hdepseq] at hde
      rw [hshape]
      show forwardEstOf (calculate_earliest_times s).tasks info = 0
      unfold forwardEstOf
      simp [hde]
    · intro hne
      rw [hdepseq] at hne
      have hestval : info'.est = info.dependencies.foldl
          (fun m d => max m (getEft (analyzePipeline s).tasks d)) 0 := by
        rw [hshape]
        show forwardEstOf (calculate_earliest_times s).tasks info = _
        rw [forwardEstOf_final s hnd hdeps hacyc info]
        unfold forwardEstOf
        rw [if_neg (by simpa [List.isEmpty_iff] using hne)]
      constructor
      · intro d hd
        rw [hdepseq] at hd
        rw [hestval]
        exact elem_le_foldl_max _ _ 0 d hd
      · rcases foldl_max_cases (getEft (analyzePipeline s).tasks)
            info.dependencies 0 with hc | ⟨d, hd, hc⟩
        · exfalso
          rcases List.exists_mem_of_ne_nil _ hne with ⟨d0, hd0⟩
          have hle : getEft (analyzePipeline s).tasks d0 ≤ 0 := by
            rw [← hc]
            exact elem_le_foldl_max _ _ 0 d0 hd0
          have hd0k : hasTaskKey s.tasks d0 = true :=
            (findUnknownDep_none_iff _).mp hdeps (t, info) (lookupTask_mem hinfo) d0 hd0
          have hk' : hasTaskKey (analyzePipeline s).tasks d0 = true := by
            rw [hasTaskKey_eq_of_fst_eq (analyzePipeline_map_fst s)]
            exact hd0k
          rcases lookupTask_some_of_hasKey hk' with ⟨i0, hi0⟩
          have hpos0 := final_eft_pos s hnd hdeps hacyc hpos d0 i0 hi0
          have hval0 : getEft (analyzePipeline s).tasks d0 = i0.eft := by
            unfold getEft
            rw [hi0]
          omega
        · refine ⟨d, by rw [hdepseq]; exact hd, ?_⟩
          rw [hestval]
          exact hc.symm
    · rw [hshape]
  · by_cases hemp : s.tasks = []
    · have htne : (analyzePipeline s).tasks = [] := by
        have := analyzePipeline_map_fst s
        rw [hemp] at this
        simpa using this
      refine ⟨?_, ?_, ?_⟩
      · intro q hq
        rw [htne] at hq
        simp at hq
      · intro hh
        exact absurd htne hh
      · intro _
        rw [analyzePipeline_pd, (pd_char_s s).1 hemp]
        exact reachable_empty_pd hreach hemp
    · obtain ⟨hub, hex⟩ := (pd_final_char_s s hnd hdeps hacyc).2 hemp
      refine ⟨?_, ?_, ?_⟩
      · intro q hq
        rw [analyzePipeline_pd]
        apply hub
        rw [← analyzePipeline_tasks]
        exact hq
      · intro _
        rw [analyzePipeline_pd]
        obtain ⟨q, hq, h⟩ := hex
        exact ⟨q, by rw [analyzePipeline_tasks]; exact hq, h⟩
      · intro habs
        exfalso
        apply hemp
        have := analyzePipeline_map_fst s
        rw [habs] at this
        simpa using this.symm

/-- The two-task chain A(3) ← B(4) used by the witnesses. -/
def chainProj : PERTDiagram :=
  add_task (add_task PERTDiagram.init "A" 3 []) "B" 4 ["A"]

theorem chainProj_reachable : Reachable chainProj :=
  Reachable.add (add_task PERTDiagram.init "A" 3 []) "B" 4 ["A"]
    (Reachable.add PERTDiagram.init "A" 3 [] Reachable.init)

theorem C1_forward_pass_recurrence_witness :
    Reachable chainProj ∧ (validate_tasks chainProj).2.1 = true ∧
    (∀ p ∈ chainProj.tasks, 0 < p.2.duration) ∧
    ((∀ t info', lookupTask (analyze chainProj).1.tasks t = some info' →
      (info'.dependencies = [] → info'.est = 0) ∧
      (info'.dependencies ≠ [] →
        (∀ d ∈ info'.dependencies, getEft (analyze chainProj).1.tasks d ≤ info'.est) ∧
        ∃ d ∈ info'.dependencies, getEft (analyze chainProj).1.tasks d = info'.est) ∧
      info'.eft = info'.est + info'.duration) ∧
    (∀ q ∈ (analyze chainProj).1.tasks, q.2.eft ≤ (analyze chainProj).1.project_duration) ∧
    ((analyze chainProj).1.tasks ≠ [] →
      ∃ q ∈ (analyze chainProj).1.tasks, (analyze chainProj).1.project_duration = q.2.eft) ∧
    ((analyze chainProj).1.tasks = [] → (analyze chainProj).1.project_duration = 0)) :=
  ⟨chainProj_reachable, by decide, by decide,
    C1_forward_pass_recurrence chainProj chainProj_reachable (by decide) (by decide)⟩

theorem analyzePipeline_depsView (s : PERTDiagram) :
    depsView (analyzePipeline s).tasks = depsView s.tasks := by
  rw [analyzePipeline_tasks, calculate_latest_times_tasks, depsView_foldl_backwardStep,
    depsView_seed, calculate_earliest_times_depsView]

/-- C2: for every validated, acyclic, reachable project, after a successful
`analyze()` every task with successors has `lft` equal to the minimum of the
successors' `lst`; every task without successors keeps `lft` equal to the
project duration; and every task has `lst = lft - duration` and
`slack = lst - est`. -/
theorem C2_backward_pass_recurrence (s : PERTDiagram)
    (hreach : Reachable s)
    (hval : (validate_tasks s).2.1 = true) :
    ∀ t info', lookupTask (analyze s).1.tasks t = some info' →
      (successorsD (depsView (analyze s).1.tasks) t = [] →
        info'.lft = (analyze s).1.project_duration) ∧
      (successorsD (depsView (analyze s).1.tasks) t ≠ [] →
        (∀ S ∈ successorsD (depsView (analyze s).1.tasks) t,
          info'.lft ≤ getLst (analyze s).1.tasks S) ∧
        ∃ S ∈ successorsD (depsView (analyze s).1.tasks) t,
          info'.lft = getLst (analyze s).1.tasks S) ∧
      info'.lst = info'.lft - info'.duration ∧
      info'.flt = info'.lst - info'.est := by
  have hnd := reachable_keysNodup hreach
  obtain ⟨hdeps, hacyc⟩ := (validate_ok_iff s).mp hval
  have hstate : (analyze s).1 = analyzePipeline s := by rw [analyze_of_valid hval]
  rw [hstate]
  intro t info' hinfo'
  rcases final_entry_orig s hnd hdeps hacyc t info' hinfo' with ⟨info, hinfo, hshape⟩
  rw [analyzePipeline_depsView]
  refine ⟨?_, ?_, ?_, ?_⟩
  · intro hsucc
    rw [hshape]
    show seededLftOf (depsView s.tasks) (analyzePipeline s).tasks
      (analyzePipeline s).project_duration t = _
    unfold seededLftOf
    rw [hsucc]
  · intro hne
    rcases hsucc : successorsD (depsView s.tasks) t with _ | ⟨s0, rest⟩
    · exact absurd hsucc hne
    · have hlftval : info'.lft = rest.foldl
          (fun m x => min m (getLst (analyzePipeline s).tasks x))
          (getLst (analyzePipeline s).tasks s0) := by
        rw [hshape]
        show seededLftOf (depsView s.tasks) (analyzePipeline s).tasks
          (analyzePipeline s).project_duration t = _
        unfold seededLftOf
        rw [hsucc]
      constructor
      · intro S hS
        rw [hlftval]
        rcases List.mem_cons.mp hS with hS | hS
        · rw [hS]
          exact foldl_min_le_init _ _ _
        · exact foldl_min_le_elem _ _ _ S hS
      · rcases foldl_min_cases (getLst (analyzePipeline s).tasks) rest
            (getLst (analyzePipeline s).tasks s0) with hc | ⟨S, hS, hc⟩
        · refine ⟨s0, List.mem_cons_self _ _, ?_⟩
          rw [hlftval]
          exact hc
        · refine ⟨S, List.mem_cons_of_mem _ hS, ?_⟩
          rw [hlftval]
          exact hc
  · rw [hshape]
  · rw [hshape]

theorem C2_backward_pass_recurrence_witness :
    Reachable chainProj ∧ (validate_tasks chainProj).2.1 = true ∧
    (∀ t info', lookupTask (analyze chainProj).1.tasks t = some info' →
      (successorsD (depsView (analyze chainProj).1.tasks) t = [] →
        info'.lft = (analyze chainProj).1.project_duration) ∧
      (successorsD (depsView (analyze chainProj).1.tasks) t ≠ [] →
        (∀ S ∈ successorsD (depsView (analyze chainProj).1.tasks) t,
          info'.lft ≤ getLst (analyze chainProj).1.tasks S) ∧
        ∃ S ∈ successorsD (depsView (analyze chainProj).1.tasks) t,
          info'.lft = getLst (analyze chainProj).1.tasks S) ∧
      info'.lst = info'.lft - info'.duration ∧
      info'.flt = info'.lst - info'.est) :=
  ⟨chainProj_reachable, by decide,
    C2_backward_pass_recurrence chainProj chainProj_reachable (by decide)⟩

/-- C4: validation fails exactly when some task declares a dependency with no
registry entry, or the dependency graph contains a directed cycle; the
unknown-dependency failure message names the dependent task and the missing
identifier, the cycle message is the fixed circular-dependency text, success
returns the empty message, and validation returns the state unchanged. -/
theorem C4_validation_characterisation (s : PERTDiagram) :
    ((validate_tasks s).2.1 = false ↔
      (∃ p ∈ s.tasks, ∃ d ∈ p.2.dependencies, lookupTask s.tasks d = none) ∨
        CycleExists (depsView s.tasks)) ∧
    ((∃ p ∈ s.tasks, ∃ d ∈ p.2.dependencies, lookupTask s.tasks d = none) →
      ∃ t d, (∃ p ∈ s.tasks, p.1 = t ∧ d ∈ p.2.dependencies ∧
          lookupTask s.tasks d = none) ∧
        (validate_tasks s).2.2 = unknownDepMsg t d) ∧
    ((¬ ∃ p ∈ s.tasks, ∃ d ∈ p.2.dependencies, lookupTask s.tasks d = none) →
      CycleExists (depsView s.tasks) → (validate_tasks s).2.2 = cycleMsg) ∧
    ((¬ ∃ p ∈ s.tasks, ∃ d ∈ p.2.dependencies, lookupTask s.tasks d = none) →
      ¬ CycleExists (depsView s.tasks) → validate_tasks s = (s, true, "")) ∧
    (validate_tasks s).1 = s := by
  rcases hf : findUnknownDep s.tasks with _ | td
  · have hall := (findUnknownDep_none_iff s.tasks).mp hf
    have hnA : ¬ ∃ p ∈ s.tasks, ∃ d ∈ p.2.dependencies, lookupTask s.tasks d = none := by
      rintro ⟨p, hp, d, hd, hnone⟩
      rw [lookupTask_eq_none_iff] at hnone
      rw [hall p hp d hd] at hnone
      simp at hnone
    rcases hc : hasCycleB (depsView s.tasks) with _ | _
    · have hnC : ¬ CycleExists (depsView s.tasks) := by
        intro hcy
        rw [hasCycleB_of_cycleExists hcy] at hc
        simp at hc
      have hv : validate_tasks s = (s, true, "") := by
        unfold validate_tasks
        rw [hf, hc]
        rfl
      refine ⟨?_, ?_, ?_, ?_, ?_⟩
      · rw [hv]
        simp only [reduceCtorEq, false_iff]
        rintro (hA | hC)
        · exact hnA hA
        · exact hnC hC
      · intro hA
        exact absurd hA hnA
      · intro _ hC
        exact absurd hC hnC
      · intro _ _
        exact hv
      · rw [hv]
    · have hC : CycleExists (depsView s.tasks) := cycleExists_of_stuck hc
      have hv : validate_tasks s = (s, false, cycleMsg) := by
        unfold validate_tasks
        rw [hf, hc]
        rfl
      refine ⟨?_, ?_, ?_, ?_, ?_⟩
      · rw [hv]
        simp only [true_iff]
        exact Or.inr hC
      · intro hA
        exact absurd hA hnA
      · intro _ _
        rw [hv]
      · intro _ hnC
        exact absurd hC hnC
      · rw [hv]
  · rcases td with ⟨t, d⟩
    rcases findUnknownDep_some_spec hf with ⟨p, hp, hpt, hd, hdk⟩
    have hA : ∃ p ∈ s.tasks, ∃ x ∈ p.2.dependencies, lookupTask s.tasks x = none :=
      ⟨p, hp, d, hd, (lookupTask_eq_none_iff _ _).mpr hdk⟩
    have hv : validate_tasks s = (s, false, unknownDepMsg t d) := by
      unfold validate_tasks
      rw [hf]
    refine ⟨?_, ?_, ?_, ?_, ?_⟩
    · rw [hv]
      simp only [true_iff]
      exact Or.inl hA
    · intro _
      exact ⟨t, d, ⟨p, hp, hpt, hd, (lookupTask_eq_none_iff _ _).mpr hdk⟩, by rw [hv]⟩
    · intro hnA
      exact absurd hA hnA
    · intro hnA
      exact absurd hA hnA
    · rw [hv]

theorem C4_validation_characterisation_witness :
    ((validate_tasks chainProj).2.1 = false ↔
      (∃ p ∈ chainProj.tasks, ∃ d ∈ p.2.dependencies,
          lookupTask chainProj.tasks d = none) ∨
        CycleExists (depsView chainProj.tasks)) ∧
    ((∃ p ∈ chainProj.tasks, ∃ d ∈ p.2.dependencies,
        lookupTask chainProj.tasks d = none) →
      ∃ t d, (∃ p ∈ chainProj.tasks, p.1 = t ∧ d ∈ p.2.dependencies ∧
          lookupTask chainProj.tasks d = none) ∧
        (validate_tasks chainProj).2.2 = unknownDepMsg t d) ∧
    ((¬ ∃ p ∈ chainProj.tasks, ∃ d ∈ p.2.dependencies,
        lookupTask chainProj.tasks d = none) →
      CycleExists (depsView chainProj.tasks) →
      (validate_tasks chainProj).2.2 = cycleMsg) ∧
    ((¬ ∃ p ∈ chainProj.tasks, ∃ d ∈ p.2.dependencies,
        lookupTask chainProj.tasks d = none) →
      ¬ CycleExists (depsView chainProj.tasks) →
      validate_tasks chainProj = (chainProj, true, "")) ∧
    (validate_tasks chainProj).1 = chainProj :=
  C4_validation_characterisation chainProj

/-- C5: when `analyze()` returns failure, the whole project state — every
task's computed timings, the project duration and the critical path — is
exactly what it was before the call. -/
theorem C5_failure_preserves_state (s : PERTDiagram)
    (h : (analyze s).2.1 = false) : (analyze s).1 = s := by
  rcases hv : (validate_tasks s).2.1 with _ | _
  · rw [analyze_of_invalid hv]
  · rw [analyze_of_valid hv] at h
    simp at h

/-- The two-task cycle A ↔ B used by failure witnesses. -/
def cycProj : PERTDiagram :=
  add_task (add_task PERTDiagram.init "A" 1 ["B"]) "B" 1 ["A"]

theorem C5_failure_preserves_state_witness :
    (analyze cycProj).2.1 = false ∧ (analyze cycProj).1 = cycProj :=
  ⟨by decide, C5_failure_preserves_state cycProj (by decide)⟩

/-- C8: the empty project (no `add_task` ever called) analyzes successfully,
with `project_duration = 0` and an empty critical path. -/
theorem C8_empty_project :
    (analyze PERTDiagram.init).2.1 = true ∧
    (analyze PERTDiagram.init).1.project_duration = 0 ∧
    (analyze PERTDiagram.init).1.critical_path = [] := by
  decide

/-- C9: `add_task` always succeeds: it stores the fresh entry under the
identifier — replacing in place any existing entry, keeping the key sequence —
and leaves every other entry unchanged. -/
theorem C9_add_task_overwrites (s : PERTDiagram) (id : String) (dur : Int)
    (deps : List String) :
    lookupTask (add_task s id dur deps).tasks id = some (mkTaskInfo dur deps) ∧
    (hasTaskKey s.tasks id = true →
      (add_task s id dur deps).tasks.map Prod.fst = s.tasks.map Prod.fst) ∧
    ∀ k, k ≠ id → lookupTask (add_task s id dur deps).tasks k = lookupTask s.tasks k := by
  refine ⟨lookupTask_dictInsert_self .., ?_, ?_⟩
  · intro h
    exact dictInsert_map_fst_of_mem h
  · intro k hk
    exact lookupTask_dictInsert_ne _ _ _ _ hk

theorem C9_add_task_overwrites_witness :
    lookupTask (add_task chainProj "A" 7 ["B"]).tasks "A" = some (mkTaskInfo 7 ["B"]) ∧
    (hasTaskKey chainProj.tasks "A" = true →
      (add_task chainProj "A" 7 ["B"]).tasks.map Prod.fst = chainProj.tasks.map Prod.fst) ∧
    ∀ k, k ≠ "A" →
      lookupTask (add_task chainProj "A" 7 ["B"]).tasks k = lookupTask chainProj.tasks k :=
  C9_add_task_overwrites chainProj "A" 7 ["B"]

/-- C10: the entry stored by `add_task` has every computed timing field equal
to 0, so re-adding an analyzed task discards its previously computed
timings. -/
theorem C10_add_task_resets_timings (s : PERTDiagram) (id : String) (dur : Int)
    (deps : List String) :
    lookupTask (add_task s id dur deps).tasks id = some
      { duration := dur, dependencies := deps,
        est := 0, eft := 0, lst := 0, lft := 0, flt := 0 } :=
  lookupTask_dictInsert_self ..

-- ### Slack nonnegativity (C6)

theorem foldl_min_ge {α : Type} (f : α → Int) (c : Int) :
    ∀ (l : List α) (a : Int), c ≤ a → (∀ d ∈ l, c ≤ f d) →
      c ≤ l.foldl (fun m d => min m (f d)) a := by
  intro l
  induction l with
  | nil => intro a ha _; exact ha
  | cons x xs ih =>
    intro a ha hl
    apply ih
    · exact le_min ha (hl x (List.mem_cons_self _ _))
    · intro d hd
      exact hl d (List.mem_cons_of_mem _ hd)

/-- Strong induction along a list: to prove `P` of every element it is enough
to prove it for each element assuming it for all earlier elements. -/
theorem list_strong_ind {α : Type} (P : α → Prop) (L : List α)
    (h : ∀ l₁ t l₂, L = l₁ ++ t :: l₂ → (∀ u ∈ l₁, P u) → P t) :
    ∀ t ∈ L, P t := by
  suffices hs : ∀ (l₂ l₁ : List α), L = l₁ ++ l₂ → (∀ u ∈ l₁, P u) → ∀ t ∈ l₂, P t by
    intro t ht
    exact hs L [] rfl (by simp) t ht
  intro l₂
  induction l₂ with
  | nil =>
    intro l₁ _ _ t ht
    simp at ht
  | cons x xs ih =>
    intro l₁ hdec hPl₁ t ht
    have hPx : P x := h l₁ x xs hdec hPl₁
    rcases List.mem_cons.mp ht with ht | ht
    · rw [ht]
      exact hPx
    · apply ih (l₁ ++ [x]) (by rw [hdec, List.append_assoc]; rfl) ?_ t ht
      intro u hu
      rcases List.mem_append.mp hu with hu | hu
      · exact hPl₁ u hu
      · rw [List.mem_singleton.mp hu]
        exact hPx

/-- In a duplicate-free list split as `l₁ ++ t :: l₂`, any element with a
strictly smaller index than `t` lies in the prefix `l₁`. -/
theorem mem_prefix_of_indexOf_lt {l₁ l₂ : List String} {t : String}
    (hnd : (l₁ ++ t :: l₂).Nodup) {S : String}
    (hlt : List.indexOf S (l₁ ++ t :: l₂) < List.indexOf t (l₁ ++ t :: l₂)) :
    S ∈ l₁ := by
  have ht1 : t ∉ l₁ := by
    intro hh
    have hdisj := (List.nodup_append.mp hnd).2.2
    exact hdisj hh (List.mem_cons_self _ _)
  have hidxt : List.indexOf t (l₁ ++ t :: l₂) = l₁.length := by
    rw [List.indexOf_append_of_not_mem ht1, List.indexOf_cons_self]
    omega
  by_contra hS1
  have hidxS : List.indexOf S (l₁ ++ t :: l₂) =
      l₁.length + List.indexOf S (t :: l₂) :=
    List.indexOf_append_of_not_mem hS1
  omega

/-- Recover the registry entry behind a graph-view membership fact, for
duplicate-free keys. -/
theorem lookup_of_mem_depsView {ts : List (String × TaskInfo)}
    (hnd : (ts.map Prod.fst).Nodup) {p : String × List String}
    (h : p ∈ depsView ts) :
    ∃ info, lookupTask ts p.1 = some info ∧ info.dependencies = p.2 := by
  rcases List.mem_map.mp h with ⟨q, hq, hql⟩
  have h1 : q.1 = p.1 := congrArg Prod.fst hql
  have h2 : q.2.dependencies = p.2 := congrArg Prod.snd hql
  refine ⟨q.2, ?_, h2⟩
  rw [← h1]
  exact lookupTask_of_mem_nodup hnd (by rw [Prod.mk.eta]; exact hq)

/-- The CPM core inequality: after a successful analysis every task's latest
finish is at least its earliest finish. -/
theorem final_lft_ge_eft (s : PERTDiagram)
    (hnd : (s.tasks.map Prod.fst).Nodup)
    (hdeps : findUnknownDep s.tasks = none)
    (hacyc : hasCycleB (depsView s.tasks) = false) :
    ∀ t info', lookupTask (analyzePipeline s).tasks t = some info' →
      info'.eft ≤ info'.lft := by
  obtain ⟨hndL, hLkeys, hcomplete⟩ := topo_ctx s hnd hacyc
  have hndds : ((depsView s.tasks).map Prod.fst).Nodup := by
    rw [depsView_map_fst]
    exact hnd
  have hndLr : ((topoSort (depsView s.tasks)).reverse).Nodup := List.nodup_reverse.mpr hndL
  have main : ∀ t ∈ (topoSort (depsView s.tasks)).reverse,
      ∀ info', lookupTask (analyzePipeline s).tasks t = some info' →
        info'.eft ≤ info'.lft := by
    apply list_strong_ind
      (fun t => ∀ info', lookupTask (analyzePipeline s).tasks t = some info' →
        info'.eft ≤ info'.lft)
    intro l₁ t l₂ hdec hPl₁ info' hinfo'
    rcases final_entry_orig s hnd hdeps hacyc t info' hinfo' with ⟨info, hinfo, hshape⟩
    rcases hsucc : successorsD (depsView s.tasks) t with _ | ⟨s0, rest⟩
    · -- no successors: lft is the project duration, an upper bound of eft
      have hlft : info'.lft = (analyzePipeline s).project_duration := by
        rw [hshape]
        show seededLftOf (depsView s.tasks) (analyzePipeline s).tasks
          (analyzePipeline s).project_duration t = _
        unfold seededLftOf
        rw [hsucc]
      have hne : s.tasks ≠ [] := List.ne_nil_of_mem (lookupTask_mem hinfo)
      have hub := ((pd_final_char_s s hnd hdeps hacyc).2 hne).1
      have hmem : (t, info') ∈ (calculate_latest_times (calculate_earliest_times s)).tasks := by
        rw [← analyzePipeline_tasks]
        exact lookupTask_mem hinfo'
      have := hub (t, info') hmem
      rw [hlft, analyzePipeline_pd]
      exact this
    · -- successors exist: lft is the minimum of their lst, each ≥ eft
      have hlft : info'.lft = rest.foldl
          (fun m x => min m (getLst (analyzePipeline s).tasks x))
          (getLst (analyzePipeline s).tasks s0) := by
        rw [hshape]
        show seededLftOf (depsView s.tasks) (analyzePipeline s).tasks
          (analyzePipeline s).project_duration t = _
        unfold seededLftOf
        rw [hsucc]
      have hstep : ∀ S, S ∈ successorsD (depsView s.tasks) t →
          info'.eft ≤ getLst (analyzePipeline s).tasks S := by
        intro S hS
        rcases (mem_successorsD_iff _ t S).mp hS with ⟨p, hp, hpS, htp⟩
        rcases lookup_of_mem_depsView hnd hp with ⟨origS, hlkS0, hdepsS⟩
        rw [hpS] at hlkS0
        have hlkS : lookupTask s.tasks S = some origS := hlkS0
        have hkS : hasTaskKey (analyzePipeline s).tasks S = true := by
          rw [hasTaskKey_eq_of_fst_eq (analyzePipeline_map_fst s)]
          exact (hasTaskKey_iff _ S).mpr (mem_keys_of_lookupTask hlkS)
        rcases lookupTask_some_of_hasKey hkS with ⟨infoS, hinfoS⟩
        rcases final_entry_orig s hnd hdeps hacyc S infoS hinfoS with ⟨origS', hlkS', hshapeS⟩
        have horig : origS' = origS := by
          rw [hlkS] at hlkS'
          exact (Option.some.inj hlkS').symm
        rw [horig] at hshapeS
        -- the successor is processed earlier in the reversed order
        have htL : t ∈ topoSort (depsView s.tasks) := by
          apply hcomplete
          exact mem_keys_of_lookupTask hinfo
        have hSL : S ∈ topoSort (depsView s.tasks) := by
          apply hcomplete
          exact mem_keys_of_lookupTask hlkS
        have hord : List.indexOf t (topoSort (depsView s.tasks)) <
            List.indexOf S (topoSort (depsView s.tasks)) := by
          have := topoSort_order hndds p hp t htp ?_ ?_ ?_
          · rw [hpS] at this
            exact this
          · rw [depsView_map_fst]
            exact mem_keys_of_lookupTask hinfo
          · exact htL
          · rw [hpS]
            exact hSL
        have hordr := indexOf_reverse_lt hndL htL hSL hord
        have hSl₁ : S ∈ l₁ := by
          rw [hdec] at hndLr hordr
          exact mem_prefix_of_indexOf_lt hndLr hordr
        have hIH := hPl₁ S hSl₁ infoS hinfoS
        -- lst S = lft S - dur S ≥ eft S - dur S = est S ≥ eft t
        have hlstS : infoS.lst = infoS.lft - infoS.duration := by rw [hshapeS]
        have heftS : infoS.eft = infoS.est + infoS.duration := by rw [hshapeS]
        have hestS_ge : info'.eft ≤ infoS.est := by
          have hestSval : infoS.est = forwardEstOf (analyzePipeline s).tasks origS := by
            rw [hshapeS]
            show forwardEstOf (calculate_earliest_times s).tasks origS = _
            exact forwardEstOf_final s hnd hdeps hacyc origS
          rw [hestSval]
          unfold forwardEstOf
          have hne : ¬ origS.dependencies.isEmpty = true := by
            intro hh
            have := List.isEmpty_iff.mp hh
            rw [hdepsS] at this
            rw [this] at htp
            simp at htp
          rw [if_neg hne]
          have : getEft (analyzePipeline s).tasks t ≤ _ :=
            elem_le_foldl_max (getEft (analyzePipeline s).tasks) origS.dependencies 0 t
              (by rw [hdepsS]; exact htp)
          have hg : getEft (analyzePipeline s).tasks t = info'.eft := by
            unfold getEft
            rw [hinfo']
          rw [hg] at this
          exact this
        have hglst : getLst (analyzePipeline s).tasks S = infoS.lst := by
          unfold getLst
          rw [hinfoS]
        rw [hglst]
        omega
      rw [hlft]
      apply foldl_min_ge
      · exact hstep s0 (by rw [hsucc]; exact List.mem_cons_self _ _)
      · intro S hS
        exact hstep S (by rw [hsucc]; exact List.mem_cons_of_mem _ hS)
  intro t info' hinfo'
  have htL : t ∈ (topoSort (depsView s.tasks)).reverse := by
    apply List.mem_reverse.mpr
    apply hcomplete
    rw [← analyzePipeline_map_fst s]
    exact mem_keys_of_lookupTask hinfo'
  exact main t htL info' hinfo'

/-- Membership in the zero-float classification, for duplicate-free keys. -/
theorem mem_criticalTasks_iff {ts : List (String × TaskInfo)}
    (hnd : (ts.map Prod.fst).Nodup) (t : String) :
    t ∈ criticalTasks ts ↔ ∃ i, lookupTask ts t = some i ∧ i.flt = 0 := by
  unfold criticalTasks
  constructor
  · intro h
    rcases List.mem_map.mp h with ⟨p, hp, hpt⟩
    rcases List.mem_filter.mp hp with ⟨hmem, hflt⟩
    refine ⟨p.2, ?_, by simpa using hflt⟩
    rw [← hpt]
    exact lookupTask_of_mem_nodup hnd (by rw [Prod.mk.eta]; exact hmem)
  · rintro ⟨i, hi, hflt⟩
    apply List.mem_map.mpr
    exact ⟨(t, i), List.mem_filter.mpr ⟨lookupTask_mem hi, by simpa using hflt⟩, rfl⟩

/-- C6: after a successful analysis of a valid (reachable, validated, positive
durations) project, every task satisfies `eft ≥ est`, `lft ≥ lst` and
`slack ≥ 0`, and a task is classified critical exactly when its slack is
exactly 0. -/
theorem C6_computed_invariants (s : PERTDiagram)
    (hreach : Reachable s)
    (hval : (validate_tasks s).2.1 = true)
    (hpos : ∀ p ∈ s.tasks, 0 < p.2.duration) :
    (∀ t info', lookupTask (analyze s).1.tasks t = some info' →
      info'.est ≤ info'.eft ∧ info'.lst ≤ info'.lft ∧ 0 ≤ info'.flt) ∧
    ∀ t, t ∈ criticalTasks (analyze s).1.tasks ↔
      ∃ info', lookupTask (analyze s).1.tasks t = some info' ∧ info'.flt = 0 := by
  have hnd := reachable_keysNodup hreach
  obtain ⟨hdeps, hacyc⟩ := (validate_ok_iff s).mp hval
  have hstate : (analyze s).1 = analyzePipeline s := by rw [analyze_of_valid hval]
  rw [hstate]
  constructor
  · intro t info' hinfo'
    rcases final_entry_orig s hnd hdeps hacyc t info' hinfo' with ⟨info, hinfo, hshape⟩
    have hdur : 0 < info.duration := hpos (t, info) (lookupTask_mem hinfo)
    have hcp := final_lft_ge_eft s hnd hdeps hacyc t info' hinfo'
    have h1 : info'.eft = info'.est + info'.duration := by rw [hshape]
    have h2 : info'.lst = info'.lft - info'.duration := by rw [hshape]
    have h3 : info'.flt = info'.lst - info'.est := by rw [hshape]
    have h4 : info'.duration = info.duration := by rw [hshape]
    exact ⟨by omega, by omega, by omega⟩
  · intro t
    have hndf : ((analyzePipeline s).tasks.map Prod.fst).Nodup := by
      rw [analyzePipeline_map_fst]
      exact hnd
    exact mem_criticalTasks_iff hndf t

theorem C6_computed_invariants_witness :
    Reachable chainProj ∧ (validate_tasks chainProj).2.1 = true ∧
    (∀ p ∈ chainProj.tasks, 0 < p.2.duration) ∧
    ((∀ t info', lookupTask (analyze chainProj).1.tasks t = some info' →
      info'.est ≤ info'.eft ∧ info'.lst ≤ info'.lft ∧ 0 ≤ info'.flt) ∧
    ∀ t, t ∈ criticalTasks (analyze chainProj).1.tasks ↔
      ∃ info', lookupTask (analyze chainProj).1.tasks t = some info' ∧ info'.flt = 0) :=
  ⟨chainProj_reachable, by decide, by decide,
    C6_computed_invariants chainProj chainProj_reachable (by decide) (by decide)⟩

-- ### Critical-path extraction versus its specification (C3)

theorem contains_congr {A B : List String} (h : ∀ x, x ∈ A ↔ x ∈ B)
    (t : String) : A.contains t = B.contains t := by
  rw [show A.contains t = decide (t ∈ A) from List.elem_eq_mem t A,
    show B.contains t = decide (t ∈ B) from List.elem_eq_mem t B]
  exact decide_eq_decide.mpr (h t)

/-- In-degree of a critical task inside the critical subgraph: the number of
distinct critical predecessors. -/
def inDegreeInCrit (ds : DepsView) (crit : List String) (t : String) : Nat :=
  ((lookupDeps ds t).dedup.filter (fun d => crit.contains d)).length

/-- The spec's breadth-first traversal over the critical subgraph: pop the
queue, append each critical task to the path on first visit, and enqueue its
not-yet-visited critical successors.  (The visited set of the spec's wording
is exactly the set of already-appended tasks.) -/
def specBfsAux (ds : DepsView) (crit : List String) :
    Nat → List String → List String → List String
  | 0, _, path => path
  | fuel + 1, queue, path =>
    match queue with
    | [] => path
    | t :: rest =>
      if path.contains t then specBfsAux ds crit fuel rest path
      else
        specBfsAux ds crit fuel
          (rest ++ (critSuccs ds crit t).filter (fun x => !((path ++ [t]).contains x)))
          (path ++ [t])

/-- Modelled from the spec (§4.6): the ordered critical path of an analysed
project — the subgraph induced by the zero-slack tasks, seeded with every
critical task of zero in-degree within that subgraph, traversed breadth-first
with each task appended on first visit; empty when there is no critical task
or no zero-in-degree seed. -/
def specCriticalPath (s : PERTDiagram) : List String :=
  let crit := criticalTasks s.tasks
  if crit.isEmpty then []
  else
    let ds := depsView s.tasks
    let start := crit.filter (fun t => inDegreeInCrit ds crit t == 0)
    if start.isEmpty then []
    else specBfsAux ds crit ((s.tasks.length + 1) * (s.tasks.length + 1)) start []

/-- The code's BFS with its separate visited list equals the spec's BFS that
reuses the path as the visited set, whenever the two sets coincide. -/
theorem bfsAux_eq_specBfsAux (ds : DepsView) (crit : List String) :
    ∀ (fuel : Nat) (visited queue acc : List String),
      (∀ x, x ∈ visited ↔ x ∈ acc) →
      bfsAux ds crit fuel visited queue acc = specBfsAux ds crit fuel queue acc := by
  intro fuel
  induction fuel with
  | zero => intro visited queue acc _; rfl
  | succ fuel ih =>
    intro visited queue acc hiff
    unfold bfsAux specBfsAux
    cases queue with
    | nil => rfl
    | cons t rest =>
      dsimp only
      rw [contains_congr hiff t]
      by_cases ht : acc.contains t = true
      · rw [if_pos ht, if_pos ht]
        exact ih visited rest acc hiff
      · rw [if_neg ht, if_neg ht]
        have hiff' : ∀ x, x ∈ visited ++ [t] ↔ x ∈ acc ++ [t] := by
          intro x
          simp only [List.mem_append, List.mem_singleton]
          rw [hiff x]
        rw [List.filter_congr (fun x _ => by rw [contains_congr hiff' x])]
        exact ih (visited ++ [t]) _ (acc ++ [t]) hiff'

/-- Zero in-degree inside the critical subgraph is exactly "no critical
dependency". -/
theorem start_filter_eq (ds : DepsView) (crit : List String) :
    crit.filter (fun t => !((lookupDeps ds t).any (fun d => crit.contains d))) =
      crit.filter (fun t => inDegreeInCrit ds crit t == 0) := by
  apply List.filter_congr
  intro t _
  rcases hany : (lookupDeps ds t).any (fun d => crit.contains d) with _ | _
  · simp only [Bool.not_false]
    have hnone := List.any_eq_false.mp hany
    have hnil : (lookupDeps ds t).dedup.filter (fun d => crit.contains d) = [] := by
      apply List.filter_eq_nil_iff.mpr
      intro d hd
      exact hnone d (List.mem_dedup.mp hd)
    symm
    unfold inDegreeInCrit
    rw [hnil]
    rfl
  · simp only [Bool.not_true]
    rcases List.any_eq_true.mp hany with ⟨d, hd, hdc⟩
    have hmem : d ∈ (lookupDeps ds t).dedup.filter (fun d => crit.contains d) :=
      List.mem_filter.mpr ⟨List.mem_dedup.mpr hd, hdc⟩
    have hlen : inDegreeInCrit ds crit t ≠ 0 := by
      unfold inDegreeInCrit
      intro hh
      rw [List.length_eq_zero.mp hh] at hmem
      simp at hmem
    have hbeq : (inDegreeInCrit ds crit t == 0) = false := beq_eq_false_iff_ne.mpr hlen
    exact hbeq.symm

/-- The `critical_path` field written by `identify_critical_path`. -/
theorem identify_critical_path_cp (s : PERTDiagram) :
    (identify_critical_path s).critical_path = specCriticalPath s := by
  unfold identify_critical_path specCriticalPath
  dsimp only
  by_cases h1 : (criticalTasks s.tasks).isEmpty
  · rw [if_pos h1, if_pos h1]
  · rw [if_neg h1, if_neg h1]
    rw [start_filter_eq (depsView s.tasks) (criticalTasks s.tasks)]
    by_cases h2 : ((criticalTasks s.tasks).filter
        (fun t => inDegreeInCrit (depsView s.tasks) (criticalTasks s.tasks) t == 0)).isEmpty
    · rw [if_pos h2, if_pos h2]
    · rw [if_neg h2, if_neg h2]
      exact bfsAux_eq_specBfsAux _ _ _ _ _ _ (fun x => Iff.rfl)

/-- C3: for every validated project, the critical path produced by `analyze()`
is exactly the sequence described by the spec: BFS over the zero-slack-induced
subgraph from the zero-in-degree critical seeds, appending each critical task
on first visit, and empty when there is no critical task or no seed. -/
theorem C3_critical_path_is_spec_bfs (s : PERTDiagram)
    (hval : (validate_tasks s).2.1 = true) :
    (analyze s).1.critical_path = specCriticalPath (analyze s).1 := by
  have hstate : (analyze s).1 = analyzePipeline s := by rw [analyze_of_valid hval]
  rw [hstate]
  show (identify_critical_path (calculate_latest_times (calculate_earliest_times s))).critical_path
    = specCriticalPath (identify_critical_path (calculate_latest_times (calculate_earliest_times s)))
  rw [identify_critical_path_cp]
  unfold specCriticalPath
  rw [identify_critical_path_tasks]

theorem C3_critical_path_is_spec_bfs_witness :
    (validate_tasks chainProj).2.1 = true ∧
    (analyze chainProj).1.critical_path = specCriticalPath (analyze chainProj).1 :=
  ⟨by decide, C3_critical_path_is_spec_bfs chainProj (by decide)⟩

-- ### Idempotence of the analysis (C7)

theorem find?_congr {p q : String → Bool} (h : ∀ x, p x = q x) :
    ∀ l : List String, l.find? p = l.find? q := by
  intro l
  induction l with
  | nil => rfl
  | cons x xs ih =>
    unfold List.find?
    rw [h x, ih]

/-- `findUnknownDep` only reads keys and dependency lists. -/
theorem findUnknownDepAux_congr {allA allB : List (String × TaskInfo)}
    (hk : ∀ d, hasTaskKey allA d = hasTaskKey allB d) :
    ∀ (subA subB : List (String × TaskInfo)), depsView subA = depsView subB →
      findUnknownDepAux allA subA = findUnknownDepAux allB subB := by
  intro subA
  induction subA with
  | nil =>
    intro subB hdv
    cases subB with
    | nil => rfl
    | cons q qs => simp [depsView] at hdv
  | cons p ps ih =>
    intro subB hdv
    cases subB with
    | nil => simp [depsView] at hdv
    | cons q qs =>
      simp only [depsView, List.map_cons, List.cons.injEq, Prod.mk.injEq] at hdv
      obtain ⟨⟨h1, h2⟩, h3⟩ := hdv
      unfold findUnknownDepAux
      rw [show p.2.dependencies.find? (fun d => !(hasTaskKey allA d))
          = q.2.dependencies.find? (fun d => !(hasTaskKey allB d)) by
        rw [h2]
        exact find?_congr (fun x => by rw [hk x]) _]
      rcases q.2.dependencies.find? (fun d => !(hasTaskKey allB d)) with _ | d
      · exact ih qs h3
      · rw [h1]

theorem findUnknownDep_congr {A B : List (String × TaskInfo)}
    (h : depsView A = depsView B) : findUnknownDep A = findUnknownDep B := by
  have hk : ∀ d, hasTaskKey A d = hasTaskKey B d := by
    intro d
    apply hasTaskKey_eq_of_fst_eq
    rw [← depsView_map_fst, ← depsView_map_fst, h]
  exact findUnknownDepAux_congr hk A B h

/-- The validation verdict only reads keys and dependency lists. -/
theorem validate_flag_congr {A B : PERTDiagram} (h : depsView A.tasks = depsView B.tasks) :
    (validate_tasks A).2 = (validate_tasks B).2 := by
  unfold validate_tasks
  rw [findUnknownDep_congr h, h]
  rcases findUnknownDep B.tasks with _ | ⟨t, d⟩
  · dsimp only
    split <;> rfl
  · rfl

theorem taskInfo_eq {a b : TaskInfo} (h1 : a.duration = b.duration)
    (h2 : a.dependencies = b.dependencies) (h3 : a.est = b.est) (h4 : a.eft = b.eft)
    (h5 : a.lst = b.lst) (h6 : a.lft = b.lft) (h7 : a.flt = b.flt) : a = b := by
  cases a
  cases b
  simp_all

/-- Registries with the same key sequence, duplicate-free, and pointwise equal
lookups are equal. -/
theorem entries_eq_of_lookup_eq :
    ∀ {X Y : List (String × TaskInfo)},
      X.map Prod.fst = Y.map Prod.fst → (X.map Prod.fst).Nodup →
      (∀ t, lookupTask X t = lookupTask Y t) → X = Y := by
  intro X
  induction X with
  | nil =>
    intro Y hk _ _
    cases Y with
    | nil => rfl
    | cons q qs => simp at hk
  | cons p ps ih =>
    intro Y hk hnd hl
    cases Y with
    | nil => simp at hk
    | cons q qs =>
      simp only [List.map_cons, List.cons.injEq] at hk
      obtain ⟨hk1, hk2⟩ := hk
      rw [List.map_cons, List.nodup_cons] at hnd
      have hp2 : p.2 = q.2 := by
        have hpt := hl p.1
        rw [lookupTask, lookupTask, if_pos rfl, if_pos hk1.symm] at hpt
        exact Option.some.inj hpt
      have hll : ∀ t, lookupTask ps t = lookupTask qs t := by
        intro t
        by_cases ht : p.1 = t
        · rw [← ht]
          have hnp : hasTaskKey ps p.1 = false := by
            rcases hh : hasTaskKey ps p.1 with _ | _
            · rfl
            · exact absurd ((hasTaskKey_iff _ _).mp hh) hnd.1
          have hnq : hasTaskKey qs p.1 = false := by
            rw [hasTaskKey_eq_of_fst_eq hk2.symm]
            exact hnp
          rw [(lookupTask_eq_none_iff _ _).mpr hnp, (lookupTask_eq_none_iff _ _).mpr hnq]
        · have hqt : ¬ q.1 = t := by
            rw [← hk1]
            exact ht
          have := hl t
          rw [lookupTask, lookupTask, if_neg ht, if_neg hqt] at this
          exact this
      have hq : p = q := by
        cases p
        cases q
        simp at hk1 hp2
        simp [hk1, hp2]
      rw [hq, ih hk2 hnd.2 hll]

/-- The `est`/`eft` shape of a computed entry, phrased over the final state. -/
theorem final_est_shape (z : PERTDiagram)
    (hnd : (z.tasks.map Prod.fst).Nodup)
    (hdeps : findUnknownDep z.tasks = none)
    (hacyc : hasCycleB (depsView z.tasks) = false) :
    ∀ t i', lookupTask (analyzePipeline z).tasks t = some i' →
      ∃ info, lookupTask z.tasks t = some info ∧
        i'.dependencies = info.dependencies ∧
        i'.duration = info.duration ∧
        i'.est = (if info.dependencies.isEmpty then 0
          else info.dependencies.foldl
            (fun m d => max m (getEft (analyzePipeline z).tasks d)) 0) ∧
        i'.eft = i'.est + i'.duration := by
  intro t i' hi'
  rcases final_entry_orig z hnd hdeps hacyc t i' hi' with ⟨info, hinfo, hshape⟩
  refine ⟨info, hinfo, by rw [hshape], by rw [hshape], ?_, by rw [hshape]⟩
  rw [hshape]
  show forwardEstOf (calculate_earliest_times z).tasks info = _
  rw [forwardEstOf_final z hnd hdeps hacyc info]
  unfold forwardEstOf
  rfl

/-- The `lft`/`lst`/`flt` shape of a computed entry, phrased over the final
state. -/
theorem final_lft_shape (z : PERTDiagram)
    (hnd : (z.tasks.map Prod.fst).Nodup)
    (hdeps : findUnknownDep z.tasks = none)
    (hacyc : hasCycleB (depsView z.tasks) = false) :
    ∀ t i', lookupTask (analyzePipeline z).tasks t = some i' →
      (successorsD (depsView z.tasks) t = [] →
        i'.lft = (analyzePipeline z).project_duration) ∧
      (∀ s0 rest, successorsD (depsView z.tasks) t = s0 :: rest →
        i'.lft = rest.foldl (fun m x => min m (getLst (analyzePipeline z).tasks x))
          (getLst (analyzePipeline z).tasks s0)) ∧
      i'.lst = i'.lft - i'.duration ∧
      i'.flt = i'.lst - i'.est := by
  intro t i' hi'
  rcases final_entry_orig z hnd hdeps hacyc t i' hi' with ⟨info, hinfo, hshape⟩
  refine ⟨?_, ?_, by rw [hshape], by rw [hshape]⟩
  · intro hsucc
    rw [hshape]
    show seededLftOf (depsView z.tasks) (analyzePipeline z).tasks
      (analyzePipeline z).project_duration t = _
    unfold seededLftOf
    rw [hsucc]
  · intro s0 rest hsucc
    rw [hshape]
    show seededLftOf (depsView z.tasks) (analyzePipeline z).tasks
      (analyzePipeline z).project_duration t = _
    unfold seededLftOf
    rw [hsucc]

/-- The hypotheses of the characterisation lemmas transfer to the analysed
state: keys stay duplicate-free and the validation verdict is unchanged. -/
theorem pipeline_hyps (s : PERTDiagram)
    (hnd : (s.tasks.map Prod.fst).Nodup)
    (hdeps : findUnknownDep s.tasks = none)
    (hacyc : hasCycleB (depsView s.tasks) = false) :
    ((analyzePipeline s).tasks.map Prod.fst).Nodup ∧
    findUnknownDep (analyzePipeline s).tasks = none ∧
    hasCycleB (depsView (analyzePipeline s).tasks) = false := by
  refine ⟨?_, ?_, ?_⟩
  · rw [analyzePipeline_map_fst]
    exact hnd
  · rw [findUnknownDep_congr (analyzePipeline_depsView s)]
    exact hdeps
  · rw [analyzePipeline_depsView]
    exact hacyc

/-- Re-analysing an analysed project recomputes the same `est` and `eft` for
every task (together with the untouched duration and dependency list). -/
theorem pipeline_idem_estEft (s : PERTDiagram)
    (hnd : (s.tasks.map Prod.fst).Nodup)
    (hdeps : findUnknownDep s.tasks = none)
    (hacyc : hasCycleB (depsView s.tasks) = false) :
    ∀ t i₁ i₂, lookupTask (analyzePipeline s).tasks t = some i₁ →
      lookupTask (analyzePipeline (analyzePipeline s)).tasks t = some i₂ →
      i₂.duration = i₁.duration ∧ i₂.dependencies = i₁.dependencies ∧
      i₂.est = i₁.est ∧ i₂.eft = i₁.eft := by
  obtain ⟨hndL, hLkeys, hcomplete⟩ := topo_ctx s hnd hacyc
  obtain ⟨hnd₁, hdeps₁, hacyc₁⟩ := pipeline_hyps s hnd hdeps hacyc
  have hndds : ((depsView s.tasks).map Prod.fst).Nodup := by
    rw [depsView_map_fst]
    exact hnd
  have main : ∀ t ∈ topoSort (depsView s.tasks),
      ∀ i₁ i₂, lookupTask (analyzePipeline s).tasks t = some i₁ →
        lookupTask (analyzePipeline (analyzePipeline s)).tasks t = some i₂ →
        i₂.duration = i₁.duration ∧ i₂.dependencies = i₁.dependencies ∧
        i₂.est = i₁.est ∧ i₂.eft = i₁.eft := by
    apply list_strong_ind
      (fun t => ∀ i₁ i₂, lookupTask (analyzePipeline s).tasks t = some i₁ →
        lookupTask (analyzePipeline (analyzePipeline s)).tasks t = some i₂ →
        i₂.duration = i₁.duration ∧ i₂.dependencies = i₁.dependencies ∧
        i₂.est = i₁.est ∧ i₂.eft = i₁.eft)
    intro l₁ t l₂ hdec hPl₁ i₁ i₂ hi₁ hi₂
    rcases final_est_shape s hnd hdeps hacyc t i₁ hi₁
      with ⟨info, hinfo, hdep1, hdur1, hest1, heft1⟩
    rcases final_est_shape (analyzePipeline s) hnd₁ hdeps₁ hacyc₁ t i₂ hi₂
      with ⟨info₁, hinfo₁, hdep2, hdur2, hest2, heft2⟩
    have h11 : info₁ = i₁ := by
      rw [hi₁] at hinfo₁
      exact (Option.some.inj hinfo₁).symm
    rw [h11] at hdep2 hdur2 hest2
    have hdeq : i₂.dependencies = i₁.dependencies := hdep2
    have hdureq : i₂.duration = i₁.duration := hdur2
    have hesteq : i₂.est = i₁.est := by
      rw [hest1, hest2, hdep1]
      by_cases he : info.dependencies.isEmpty
      · rw [if_pos he, if_pos he]
      · rw [if_neg he, if_neg he]
        apply foldl_acc_congr
        intro d hd
        have hdk : hasTaskKey s.tasks d = true :=
          (findUnknownDep_none_iff _).mp hdeps (t, info) (lookupTask_mem hinfo) d hd
        have hk1 : hasTaskKey (analyzePipeline s).tasks d = true := by
          rw [hasTaskKey_eq_of_fst_eq (analyzePipeline_map_fst s)]
          exact hdk
        have hk2 : hasTaskKey (analyzePipeline (analyzePipeline s)).tasks d = true := by
          rw [hasTaskKey_eq_of_fst_eq (analyzePipeline_map_fst (analyzePipeline s))]
          exact hk1
        rcases lookupTask_some_of_hasKey hk1 with ⟨j₁, hj₁⟩
        rcases lookupTask_some_of_hasKey hk2 with ⟨j₂, hj₂⟩
        have hdL : d ∈ topoSort (depsView s.tasks) :=
          hcomplete d ((hasTaskKey_iff _ d).mp hdk)
        have htL : t ∈ topoSort (depsView s.tasks) :=
          hcomplete t (mem_keys_of_lookupTask hinfo)
        have hord : List.indexOf d (topoSort (depsView s.tasks)) <
            List.indexOf t (topoSort (depsView s.tasks)) := by
          apply topoSort_order hndds (t, info.dependencies)
            (mem_depsView_of_lookup hinfo) d hd
          · rw [depsView_map_fst]
            exact (hasTaskKey_iff _ d).mp hdk
          · exact hdL
          · exact htL
        have hdl₁ : d ∈ l₁ := by
          rw [hdec] at hndL hord
          exact mem_prefix_of_indexOf_lt hndL hord
        have hIH := hPl₁ d hdl₁ j₁ j₂ hj₁ hj₂
        unfold getEft
        rw [hj₁, hj₂]
        exact hIH.2.2.2
    refine ⟨hdureq, hdeq, hesteq, ?_⟩
    rw [heft1, heft2, hesteq, hdureq]
  intro t i₁ i₂ hi₁ hi₂
  have htL : t ∈ topoSort (depsView s.tasks) := by
    apply hcomplete
    rw [← analyzePipeline_map_fst s]
    exact mem_keys_of_lookupTask hi₁
  exact main t htL i₁ i₂ hi₁ hi₂

/-- Re-analysing an analysed project recomputes the same project duration. -/
theorem pipeline_idem_pd (s : PERTDiagram)
    (hnd : (s.tasks.map Prod.fst).Nodup)
    (hdeps : findUnknownDep s.tasks = none)
    (hacyc : hasCycleB (depsView s.tasks) = false) :
    (analyzePipeline (analyzePipeline s)).project_duration =
      (analyzePipeline s).project_duration := by
  obtain ⟨hnd₁, hdeps₁, hacyc₁⟩ := pipeline_hyps s hnd hdeps hacyc
  by_cases hemp : s.tasks = []
  · have hB1 : (analyzePipeline s).tasks = [] := by
      have := analyzePipeline_map_fst s
      rw [hemp] at this
      simpa using this
    rw [analyzePipeline_pd (analyzePipeline s), (pd_char_s (analyzePipeline s)).1 hB1]
  · have hB1ne : (analyzePipeline s).tasks ≠ [] := by
      intro hh
      apply hemp
      have := analyzePipeline_map_fst s
      rw [hh] at this
      simpa using this.symm
    obtain ⟨hub₁, hex₁⟩ := (pd_final_char_s s hnd hdeps hacyc).2 hemp
    obtain ⟨hub₂, hex₂⟩ := (pd_final_char_s (analyzePipeline s) hnd₁ hdeps₁ hacyc₁).2 hB1ne
    rw [← analyzePipeline_tasks, ← analyzePipeline_pd] at hub₁ hex₁ hub₂ hex₂
    have hnd2 : ((analyzePipeline (analyzePipeline s)).tasks.map Prod.fst).Nodup := by
      rw [analyzePipeline_map_fst, analyzePipeline_map_fst]
      exact hnd
    have hndB1 : ((analyzePipeline s).tasks.map Prod.fst).Nodup := hnd₁
    have h21 : (analyzePipeline (analyzePipeline s)).project_duration ≤
        (analyzePipeline s).project_duration := by
      obtain ⟨q, hq, hpd2⟩ := hex₂
      have hlk2 : lookupTask (analyzePipeline (analyzePipeline s)).tasks q.1 = some q.2 :=
        lookupTask_of_mem_nodup hnd2 (by rw [Prod.mk.eta]; exact hq)
      have hk1 : hasTaskKey (analyzePipeline s).tasks q.1 = true := by
        rw [← hasTaskKey_eq_of_fst_eq (analyzePipeline_map_fst (analyzePipeline s))]
        exact (hasTaskKey_iff _ _).mpr (List.mem_map.mpr ⟨q, hq, rfl⟩)
      rcases lookupTask_some_of_hasKey hk1 with ⟨j₁, hj₁⟩
      have heft : q.2.eft = j₁.eft :=
        (pipeline_idem_estEft s hnd hdeps hacyc q.1 j₁ q.2 hj₁ hlk2).2.2.2
      have hb : j₁.eft ≤ (analyzePipeline s).project_duration :=
        hub₁ (q.1, j₁) (lookupTask_mem hj₁)
      rw [hpd2, heft]
      exact hb
    have h12 : (analyzePipeline s).project_duration ≤
        (analyzePipeline (analyzePipeline s)).project_duration := by
      obtain ⟨q, hq, hpd1⟩ := hex₁
      have hlk1 : lookupTask (analyzePipeline s).tasks q.1 = some q.2 :=
        lookupTask_of_mem_nodup hndB1 (by rw [Prod.mk.eta]; exact hq)
      have hk2 : hasTaskKey (analyzePipeline (analyzePipeline s)).tasks q.1 = true := by
        rw [hasTaskKey_eq_of_fst_eq (analyzePipeline_map_fst (analyzePipeline s))]
        exact (hasTaskKey_iff _ _).mpr (List.mem_map.mpr ⟨q, hq, rfl⟩)
      rcases lookupTask_some_of_hasKey hk2 with ⟨j₂, hj₂⟩
      have heft : j₂.eft = q.2.eft :=
        (pipeline_idem_estEft s hnd hdeps hacyc q.1 q.2 j₂ hlk1 hj₂).2.2.2
      have hb : j₂.eft ≤ (analyzePipeline (analyzePipeline s)).project_duration :=
        hub₂ (q.1, j₂) (lookupTask_mem hj₂)
      rw [hpd1, ← heft]
      exact hb
    exact le_antisymm h21 h12

/-- Re-analysing an analysed project recomputes the same `lft`, `lst` and
`flt` for every task. -/
theorem pipeline_idem_lft (s : PERTDiagram)
    (hnd : (s.tasks.map Prod.fst).Nodup)
    (hdeps : findUnknownDep s.tasks = none)
    (hacyc : hasCycleB (depsView s.tasks) = false) :
    ∀ t i₁ i₂, lookupTask (analyzePipeline s).tasks t = some i₁ →
      lookupTask (analyzePipeline (analyzePipeline s)).tasks t = some i₂ →
      i₂.lft = i₁.lft ∧ i₂.lst = i₁.lst ∧ i₂.flt = i₁.flt := by
  obtain ⟨hndL, hLkeys, hcomplete⟩ := topo_ctx s hnd hacyc
  obtain ⟨hnd₁, hdeps₁, hacyc₁⟩ := pipeline_hyps s hnd hdeps hacyc
  have hndds : ((depsView s.tasks).map Prod.fst).Nodup := by
    rw [depsView_map_fst]
    exact hnd
  have hndLr : ((topoSort (depsView s.tasks)).reverse).Nodup := List.nodup_reverse.mpr hndL
  have main : ∀ t ∈ (topoSort (depsView s.tasks)).reverse,
      ∀ i₁ i₂, lookupTask (analyzePipeline s).tasks t = some i₁ →
        lookupTask (analyzePipeline (analyzePipeline s)).tasks t = some i₂ →
        i₂.lft = i₁.lft ∧ i₂.lst = i₁.lst ∧ i₂.flt = i₁.flt := by
    apply list_strong_ind
      (fun t => ∀ i₁ i₂, lookupTask (analyzePipeline s).tasks t = some i₁ →
        lookupTask (analyzePipeline (analyzePipeline s)).tasks t = some i₂ →
        i₂.lft = i₁.lft ∧ i₂.lst = i₁.lst ∧ i₂.flt = i₁.flt)
    intro l₁ t l₂ hdec hPl₁ i₁ i₂ hi₁ hi₂
    obtain ⟨hsucc1n, hsucc1c, hlst1, hflt1⟩ := final_lft_shape s hnd hdeps hacyc t i₁ hi₁
    obtain ⟨hsucc2n, hsucc2c, hlst2, hflt2⟩ :=
      final_lft_shape (analyzePipeline s) hnd₁ hdeps₁ hacyc₁ t i₂ hi₂
    rw [analyzePipeline_depsView] at hsucc2n hsucc2c
    obtain ⟨hdureq, _, hesteq, _⟩ :=
      pipeline_idem_estEft s hnd hdeps hacyc t i₁ i₂ hi₁ hi₂
    have hlfteq : i₂.lft = i₁.lft := by
      rcases hsucc : successorsD (depsView s.tasks) t with _ | ⟨s0, rest⟩
      · rw [hsucc1n hsucc, hsucc2n hsucc]
        exact pipeline_idem_pd s hnd hdeps hacyc
      · rw [hsucc1c s0 rest hsucc, hsucc2c s0 rest hsucc]
        have hcong : ∀ S, S ∈ successorsD (depsView s.tasks) t →
            getLst (analyzePipeline (analyzePipeline s)).tasks S =
              getLst (analyzePipeline s).tasks S := by
          intro S hS
          have hSK : S ∈ s.tasks.map Prod.fst := by
            have := mem_keys_of_successorsD hS
            rwa [depsView_map_fst] at this
          have hk1 : hasTaskKey (analyzePipeline s).tasks S = true := by
            rw [hasTaskKey_eq_of_fst_eq (analyzePipeline_map_fst s)]
            exact (hasTaskKey_iff _ S).mpr hSK
          have hk2 : hasTaskKey (analyzePipeline (analyzePipeline s)).tasks S = true := by
            rw [hasTaskKey_eq_of_fst_eq (analyzePipeline_map_fst (analyzePipeline s))]
            exact hk1
          rcases lookupTask_some_of_hasKey hk1 with ⟨j₁, hj₁⟩
          rcases lookupTask_some_of_hasKey hk2 with ⟨j₂, hj₂⟩
          have htK : t ∈ s.tasks.map Prod.fst := by
            rw [← analyzePipeline_map_fst s]
            exact mem_keys_of_lookupTask hi₁
          have htL : t ∈ topoSort (depsView s.tasks) := hcomplete t htK
          have hSL : S ∈ topoSort (depsView s.tasks) := hcomplete S hSK
          rcases (mem_successorsD_iff _ t S).mp hS with ⟨p, hp, hpS, htp⟩
          have hord : List.indexOf t (topoSort (depsView s.tasks)) <
              List.indexOf S (topoSort (depsView s.tasks)) := by
            have := topoSort_order hndds p hp t htp ?_ ?_ ?_
            · rw [hpS] at this
              exact this
            · rw [depsView_map_fst]
              exact htK
            · exact htL
            · rw [hpS]
              exact hSL
          have hordr := indexOf_reverse_lt hndL htL hSL hord
          have hSl₁ : S ∈ l₁ := by
            rw [hdec] at hndLr hordr
            exact mem_prefix_of_indexOf_lt hndLr hordr
          have hIH := hPl₁ S hSl₁ j₁ j₂ hj₁ hj₂
          unfold getLst
          rw [hj₁, hj₂]
          exact hIH.2.1
        rw [hcong s0 (by rw [hsucc]; exact List.mem_cons_self _ _)]
        apply foldl_acc_congr
        intro S hS
        exact hcong S (by rw [hsucc]; exact List.mem_cons_of_mem _ hS)
    have hlsteq : i₂.lst = i₁.lst := by
      rw [hlst1, hlst2, hlfteq, hdureq]
    refine ⟨hlfteq, hlsteq, ?_⟩
    rw [hflt1, hflt2, hlsteq, hesteq]
  intro t i₁ i₂ hi₁ hi₂
  have htL : t ∈ (topoSort (depsView s.tasks)).reverse := by
    apply List.mem_reverse.mpr
    apply hcomplete
    rw [← analyzePipeline_map_fst s]
    exact mem_keys_of_lookupTask hi₁
  exact main t htL i₁ i₂ hi₁ hi₂

theorem pipeline_idem_tasks (s : PERTDiagram)
    (hnd : (s.tasks.map Prod.fst).Nodup)
    (hdeps : findUnknownDep s.tasks = none)
    (hacyc : hasCycleB (depsView s.tasks) = false) :
    (analyzePipeline (analyzePipeline s)).tasks = (analyzePipeline s).tasks := by
  have hkeys : (analyzePipeline (analyzePipeline s)).tasks.map Prod.fst =
      (analyzePipeline s).tasks.map Prod.fst := analyzePipeline_map_fst _
  apply entries_eq_of_lookup_eq hkeys
  · rw [hkeys, analyzePipeline_map_fst]
    exact hnd
  · intro t
    rcases hk : hasTaskKey (analyzePipeline s).tasks t with _ | _
    · rw [(lookupTask_eq_none_iff _ _).mpr hk,
        (lookupTask_eq_none_iff _ _).mpr (by rw [hasTaskKey_eq_of_fst_eq hkeys]; exact hk)]
    · rcases lookupTask_some_of_hasKey hk with ⟨i₁, hi₁⟩
      have hk2 : hasTaskKey (analyzePipeline (analyzePipeline s)).tasks t = true := by
        rw [hasTaskKey_eq_of_fst_eq hkeys]
        exact hk
      rcases lookupTask_some_of_hasKey hk2 with ⟨i₂, hi₂⟩
      obtain ⟨h1, h2, h3, h4⟩ := pipeline_idem_estEft s hnd hdeps hacyc t i₁ i₂ hi₁ hi₂
      obtain ⟨h5, h6, h7⟩ := pipeline_idem_lft s hnd hdeps hacyc t i₁ i₂ hi₁ hi₂
      rw [hi₁, hi₂, taskInfo_eq h1 h2 h3 h4 h6 h5 h7]

theorem identify_cp_congr {A B : PERTDiagram} (h : A.tasks = B.tasks) :
    (identify_critical_path A).critical_path =
      (identify_critical_path B).critical_path := by
  unfold identify_critical_path
  rw [h]
  dsimp only
  split
  · rfl
  · split <;> rfl

/-- Re-analysing an analysed project reproduces the analysed state exactly. -/
theorem pipeline_idem (s : PERTDiagram)
    (hnd : (s.tasks.map Prod.fst).Nodup)
    (hdeps : findUnknownDep s.tasks = none)
    (hacyc : hasCycleB (depsView s.tasks) = false) :
    analyzePipeline (analyzePipeline s) = analyzePipeline s := by
  have ht := pipeline_idem_tasks s hnd hdeps hacyc
  have hpd := pipeline_idem_pd s hnd hdeps hacyc
  have hcp : (analyzePipeline (analyzePipeline s)).critical_path =
      (analyzePipeline s).critical_path := by
    show (identify_critical_path
        (calculate_latest_times (calculate_earliest_times (analyzePipeline s)))).critical_path
      = (identify_critical_path
        (calculate_latest_times (calculate_earliest_times s))).critical_path
    apply identify_cp_congr
    rw [← analyzePipeline_tasks, ← analyzePipeline_tasks]
    exact ht
  have hext : ∀ (a b : PERTDiagram), a.tasks = b.tasks → a.critical_path = b.critical_path →
      a.project_duration = b.project_duration → a = b := by
    intro a b h1 h2 h3
    cases a
    cases b
    simp_all
  exact hext _ _ ht hcp hpd

set_option maxHeartbeats 1000000 in
/-- C7: with no intervening mutation, a second `analyze()` returns the same
verdict and leaves all computed fields and the critical path ordering exactly
as the first call did. -/
theorem C7_analyze_idempotent (s : PERTDiagram) (hreach : Reachable s) :
    (analyze (analyze s).1).1 = (analyze s).1 ∧
    (analyze (analyze s).1).2 = (analyze s).2 := by
  by_cases hval : (validate_tasks s).2.1 = true
  · have hnd := reachable_keysNodup hreach
    obtain ⟨hdeps, hacyc⟩ := (validate_ok_iff s).mp hval
    have h1 : analyze s = (analyzePipeline s, true, "") := analyze_of_valid hval
    have hflag : (validate_tasks (analyzePipeline s)).2 = (validate_tasks s).2 :=
      validate_flag_congr (analyzePipeline_depsView s)
    have hval₁ : (validate_tasks (analyzePipeline s)).2.1 = true := by
      rw [hflag]
      exact hval
    have h2 : analyze (analyzePipeline s) =
        (analyzePipeline (analyzePipeline s), true, "") := analyze_of_valid hval₁
    have h1a : (analyze s).1 = analyzePipeline s := by rw [h1]
    have h1b : (analyze s).2 = (true, "") := by rw [h1]
    have h2a : (analyze (analyzePipeline s)).1 = analyzePipeline (analyzePipeline s) := by
      rw [h2]
    have h2b : (analyze (analyzePipeline s)).2 = (true, "") := by rw [h2]
    constructor
    · rw [h1a, h2a]
      exact pipeline_idem s hnd hdeps hacyc
    · rw [h1a, h2b, h1b]
  · have hvf : (validate_tasks s).2.1 = false := by simpa using hval
    have h1 := analyze_of_invalid hvf
    constructor <;> simp [h1]

theorem C7_analyze_idempotent_witness :
    Reachable chainProj ∧
    ((analyze (analyze chainProj).1).1 = (analyze chainProj).1 ∧
      (analyze (analyze chainProj).1).2 = (analyze chainProj).2) :=
  ⟨chainProj_reachable, C7_analyze_idempotent chainProj chainProj_reachable⟩
